import Mathlib

/-!
# Verification of the pyidn2 module (`src/idn2module.c`) against its specification

The repository is a thin Python C-extension wrapper around GNU libidn2.  The
wrapper itself (argument checks, the error-code → message table, exception
raising) is embedded here directly from `src/idn2module.c`.  The IDNA2008
conversion engine that the wrapper calls (the libidn2 functions
`idn2_to_ascii_8z`, `idn2_lookup_u8`, `idn2_register_u8`,
`idn2_to_unicode_8z8z`, and the RFC 3492 punycode codec underneath) is not
part of the repository sources, so it is modelled from the specification,
faithful to the spec's description of the pipeline
(split into labels → normalize → validate → punycode encode/decode → rejoin,
with RFC 3492 bias adaptation and overflow checking in the codec).

Strings are modelled as lists of Unicode code points (`List Nat`); machine
integers of the codec are `Nat` with explicit comparisons against the
32-bit bound `maxint`, exactly where the C code checks for overflow.
-/

namespace Pyidn2


/-- Decidable equality of `Except` results, so that concrete wrapper
outcomes can be settled by `decide`. -/
instance {ε α : Type} [DecidableEq ε] [DecidableEq α] :
    DecidableEq (Except ε α) := fun x y =>
  match x, y with
  | .ok a, .ok b =>
    if h : a = b then .isTrue (by rw [h]) else .isFalse (by simp [h])
  | .ok _, .error _ => .isFalse (by simp)
  | .error _, .ok _ => .isFalse (by simp)
  | .error e, .error f =>
    if h : e = f then .isTrue (by rw [h]) else .isFalse (by simp [h])

/-! ## RFC 3492 punycode parameters

Modelled from the spec: the punycode codec (spec §4.1) is not in `src/`;
these are the fixed RFC 3492 parameters used by libidn2's `punycode.c`. -/

def punyBase : Nat := 36

def tmin : Nat := 1

def tmax : Nat := 26

def skew : Nat := 38

def damp : Nat := 700

def initialBias : Nat := 72

def initialN : Nat := 128

/-- The largest value representable in the codec's 32-bit unsigned
arithmetic; all overflow checks compare against it. -/
def maxint : Nat := 4294967295

/-- Upper bound (exclusive) on Unicode code points. -/
def cpBound : Nat := 1114112

/-- Modelled from the spec: RFC 3492 digit output, `0..25 ↦ 'a'..'z'`,
`26..35 ↦ '0'..'9'`. -/
def digitChar (d : Nat) : Nat := if d < 26 then d + 97 else d + 22

/-- Modelled from the spec: RFC 3492 digit input; lowercase, digits and
uppercase are accepted, anything else is an invalid digit character. -/
def digitVal (c : Nat) : Option Nat :=
  if 97 ≤ c ∧ c ≤ 122 then some (c - 97)
  else if 48 ≤ c ∧ c ≤ 57 then some (c - 22)
  else if 65 ≤ c ∧ c ≤ 90 then some (c - 65)
  else none

/-- RFC 3492 digit threshold for digit position `k` at bias `bias`:
clamp `k - bias` to `[tmin, tmax]`. -/
def threshold (k bias : Nat) : Nat := min tmax (max tmin (k - bias))

/-- The `while delta > ((base - tmin) * tmax) / 2` loop of the RFC 3492
bias adaptation function. -/
def adaptLoopF : Nat → Nat → Nat → Nat
  | 0, delta, k => k + (punyBase - tmin + 1) * delta / (delta + skew)
  | fuel + 1, delta, k =>
    if (punyBase - tmin) * tmax / 2 < delta then
      adaptLoopF fuel (delta / (punyBase - tmin)) (k + punyBase)
    else k + (punyBase - tmin + 1) * delta / (delta + skew)

def adaptLoop (delta k : Nat) : Nat := adaptLoopF delta delta k

/-- RFC 3492 bias adaptation. -/
def adapt (delta numpoints : Nat) (firsttime : Bool) : Nat :=
  let d := if firsttime then delta / damp else delta / 2
  adaptLoop (d + d / numpoints) 0

/-- Encode one non-negative integer as a variable-length digit string
(RFC 3492 generalized variable-length integers), starting at digit
position `k`. -/
def encodeVarF : Nat → Nat → Nat → Nat → List Nat
  | 0, _, _, q => [digitChar q]
  | fuel + 1, bias, k, q =>
    if q < threshold k bias then [digitChar q]
    else
      digitChar (threshold k bias +
          (q - threshold k bias) % (punyBase - threshold k bias)) ::
        encodeVarF fuel bias (k + punyBase)
          ((q - threshold k bias) / (punyBase - threshold k bias))

def encodeVar (bias k q : Nat) : List Nat := encodeVarF (q + 1) bias k q

/-- Decode one variable-length integer, accumulating `digit * w` into `i`,
with the RFC 3492 overflow checks; returns the new accumulated value and
the remaining digit stream. -/
def decodeVar (bias k w i : Nat) (ds : List Nat) : Option (Nat × List Nat) :=
  match ds with
  | [] => none
  | d :: rest =>
    match digitVal d with
    | none => none
    | some dv =>
      if maxint - i < dv * w then none
      else
        let i' := i + dv * w
        let t := threshold k bias
        if dv < t then some (i', rest)
        else if maxint < w * (punyBase - t) then none
        else decodeVar bias (k + punyBase) (w * (punyBase - t)) i' rest

/-! ## Punycode encoder (RFC 3492 §6.3, as used by libidn2's `punycode.c`)

Modelled from the spec: the encoder separates the basic (ASCII) code points,
emits them followed by a delimiter when nonempty, and then encodes the
non-basic code points with the nested "while h < length / for each c" loop
of RFC 3492, failing on arithmetic overflow. -/

/-- The basic (ASCII-range) code points of the input, in order. -/
def basicsOf (cs : List Nat) : List Nat := cs.filter (fun c => c < initialN)

/-- Encoder state: next candidate code point `n`, accumulated `delta`,
number of code points handled `h`, current `bias`, and the digit output
accumulated so far. -/
structure EncSt where
  n : Nat
  delta : Nat
  h : Nat
  bias : Nat
  out : List Nat
deriving Repr, DecidableEq

/-- One step of the RFC 3492 encoder's inner scan
(`if c < n then delta++; if c = n then emit`), with the overflow check on
the `delta` increment. -/
def encScanStep (b : Nat) (st : EncSt) (c : Nat) : Option EncSt :=
  if c < st.n then
    if maxint ≤ st.delta then none
    else some { st with delta := st.delta + 1 }
  else if c = st.n then
    some { st with
      out := st.out ++ encodeVar st.bias punyBase st.delta,
      bias := adapt st.delta (st.h + 1) (st.h = b),
      delta := 0,
      h := st.h + 1 }
  else some st

/-- One full scan over the input (the RFC 3492 `for each c in the input`
loop). -/
def encPass (b : Nat) (cs : List Nat) (st : EncSt) : Option EncSt :=
  cs.foldlM (encScanStep b) st

/-- The minimum code point `≥ n` occurring in `cs`, if any
(the `let m = the minimum code point >= n in the input` of RFC 3492). -/
def minAbove (n : Nat) : List Nat → Option Nat
  | [] => none
  | c :: cs =>
    match minAbove n cs with
    | none => if n ≤ c then some c else none
    | some m => if n ≤ c then some (min c m) else some m

/-- The RFC 3492 encoder's outer `while h < length(input)` loop, with fuel
(each iteration handles at least one code point, so
`cs.length + 1` fuel always suffices). -/
def encLoop (fuel b : Nat) (cs : List Nat) (st : EncSt) : Option (List Nat) :=
  match fuel with
  | 0 => none
  | fuel + 1 =>
    if cs.length ≤ st.h then some st.out
    else
      match minAbove st.n cs with
      | none => none
      | some m =>
        if maxint - st.delta < (m - st.n) * (st.h + 1) then none
        else
          match encPass b cs
              { st with delta := st.delta + (m - st.n) * (st.h + 1), n := m } with
          | none => none
          | some st' =>
            encLoop fuel b cs { st' with delta := st'.delta + 1, n := st'.n + 1 }

/-- Punycode encoding of a code point sequence: basic code points, a
delimiter if there was at least one, then the encoded extended part.
`none` signals an arithmetic-overflow failure. -/
def punyEncode (cs : List Nat) : Option (List Nat) :=
  let bs := basicsOf cs
  match encLoop (cs.length + 1) bs.length cs
      ⟨initialN, 0, bs.length, initialBias, []⟩ with
  | none => none
  | some ext => some (if 0 < bs.length then bs ++ 45 :: ext else ext)

/-! ## Punycode decoder (RFC 3492 §6.2) -/

/-- Split the input at the last delimiter `'-'`: everything before it is the
basic part, everything after it the extended part; with no delimiter the
whole input is extended. -/
def splitLastDelim (s : List Nat) : List Nat × List Nat :=
  if 45 ∈ s then
    let j := s.length - 1 - List.indexOf 45 s.reverse
    (s.take j, s.drop (j + 1))
  else ([], s)

/-- One iteration of the RFC 3492 decoder loop: read one variable-length
integer into the accumulator, adapt the bias, advance `n` (with overflow
check), and insert the decoded code point at the computed position (with an
explicit guard that the position does not exceed the current output
length).  Returns the new `(n, i, bias, output, remaining digits)`. -/
def decStep (n i bias : Nat) (out : List Nat) (ds : List Nat) :
    Option (Nat × Nat × Nat × List Nat × List Nat) :=
  match decodeVar bias punyBase 1 i ds with
  | none => none
  | some (i', rest) =>
    let len1 := out.length + 1
    let bias' := adapt (i' - i) len1 (i = 0)
    if maxint - n < i' / len1 then none
    else
      let n' := n + i' / len1
      let pos := i' % len1
      if out.length < pos then none
      else some (n', pos + 1, bias', out.insertIdx pos n', rest)

/-- The RFC 3492 decoder loop: one `decStep` per remaining variable-length
integer in the digit stream. -/
def decLoop (fuel : Nat) (n i bias : Nat) (out : List Nat) (ds : List Nat) :
    Option (List Nat) :=
  match fuel with
  | 0 => none
  | fuel + 1 =>
    match ds with
    | [] => some out
    | _ :: _ =>
      match decStep n i bias out ds with
      | none => none
      | some (n', i', bias', out', rest) => decLoop fuel n' i' bias' out' rest

/-- Punycode decoding: split at the last delimiter, check the basic part is
pure ASCII, then run the decoder loop (`ds.length + 1` fuel always
suffices, as every iteration consumes at least one digit). -/
def punyDecode (s : List Nat) : Option (List Nat) :=
  let (bs, ext) := splitLastDelim s
  if bs.all (fun c => c < initialN) then
    decLoop (ext.length + 1) initialN 0 initialBias bs ext
  else none

/-! ## Abstract description of the partially decoded output

During the simulation of the encoder loop against the decoder loop, the
decoder's partial output after the insertions for all code points
`(c, p)` lexicographically below the current `(m, j)` is exactly: the
input positions `p < j` holding `c ≤ m`, followed by the positions
`p ≥ j` holding `c < m`. -/

def cntLT (l : List Nat) (m : Nat) : Nat := l.countP (fun c => decide (c < m))

def cntLE (l : List Nat) (m : Nat) : Nat := l.countP (fun c => decide (c ≤ m))

def cntEQ (l : List Nat) (m : Nat) : Nat := l.countP (fun c => decide (c = m))

def selLT (l : List Nat) (m : Nat) : List Nat := l.filter (fun c => decide (c < m))

def selLE (l : List Nat) (m : Nat) : List Nat := l.filter (fun c => decide (c ≤ m))

/-! ## Engine error codes

Modelled from the spec: the numeric values of the `IDN2_*` error
enumeration of `idn2.h` (not part of this repository's sources), against
which `setidn2errstr` in `src/idn2module.c` switches. -/

def IDN2_OK : Int := 0

def IDN2_MALLOC : Int := -100

def IDN2_NO_CODESET : Int := -101

def IDN2_ICONV_FAIL : Int := -102

def IDN2_ENCODING_ERROR : Int := -200

def IDN2_NFC : Int := -201

def IDN2_PUNYCODE_BAD_INPUT : Int := -202

def IDN2_PUNYCODE_BIG_OUTPUT : Int := -203

def IDN2_PUNYCODE_OVERFLOW : Int := -204

def IDN2_TOO_BIG_DOMAIN : Int := -205

def IDN2_TOO_BIG_LABEL : Int := -206

def IDN2_INVALID_ALABEL : Int := -207

def IDN2_UALABEL_MISMATCH : Int := -208

def IDN2_INVALID_FLAGS : Int := -209

def IDN2_NOT_NFC : Int := -300

def IDN2_2HYPHEN : Int := -301

def IDN2_HYPHEN_STARTEND : Int := -302

def IDN2_LEADING_COMBINING : Int := -303

def IDN2_DISALLOWED : Int := -304

def IDN2_CONTEXTJ : Int := -305

def IDN2_CONTEXTJ_NO_RULE : Int := -306

def IDN2_CONTEXTO : Int := -307

def IDN2_CONTEXTO_NO_RULE : Int := -308

def IDN2_UNASSIGNED : Int := -309

def IDN2_BIDI : Int := -310

def IDN2_DOT_IN_LABEL : Int := -311

def IDN2_INVALID_TRANSITIONAL : Int := -312

def IDN2_INVALID_NONTRANSITIONAL : Int := -313

/-! ## NFC normalizer

Modelled from the spec (§4.3): applies Unicode canonical composition; a
no-op on input already in NFC.  The full Unicode composition data is not
part of this repository; the table below carries the canonical
compositions exercised by this development (Latin vowels with combining
acute U+0301). -/

def compose2 (a b : Nat) : Option Nat :=
  if b = 769 then
    if a = 97 then some 225
    else if a = 101 then some 233
    else if a = 111 then some 243
    else none
  else none

def nfcF : Nat → List Nat → List Nat
  | _, [] => []
  | _, [a] => [a]
  | 0, l => l
  | fuel + 1, a :: b :: rest =>
    match compose2 a b with
    | some c => nfcF fuel (c :: rest)
    | none => a :: nfcF fuel (b :: rest)

def nfc (l : List Nat) : List Nat := nfcF l.length l

/-! ## Label validation

Modelled from the spec (§4.2): the per-label IDNA2008 checks, each with
its distinct error code, in the spec's order.  The code point
classification table (spec §3) is modelled with lowercase ASCII letters,
digits and the hyphen PVALID, every other ASCII code point DISALLOWED, and
all non-ASCII code points below the Unicode bound PVALID; the CONTEXTJ /
CONTEXTO / UNASSIGNED classes are empty in this model, so checks 6-8 never
fire, and the bidi and transitional checks (9-11) are likewise not
exercised by any claim. -/

def pvalid (c : Nat) : Bool :=
  decide ((97 ≤ c ∧ c ≤ 122) ∨ (48 ≤ c ∧ c ≤ 57) ∨ c = 45 ∨
    (128 ≤ c ∧ c < cpBound))

def combining (c : Nat) : Bool := decide (768 ≤ c ∧ c ≤ 879)

def checkLabelU (l : List Nat) : Option Int :=
  if l.get? 2 = some 45 ∧ l.get? 3 = some 45 then some IDN2_2HYPHEN
  else if l.head? = some 45 ∨ l.getLast? = some 45 then some IDN2_HYPHEN_STARTEND
  else if (match l.head? with | some c => combining c | none => false) then
    some IDN2_LEADING_COMBINING
  else if ¬ l.all pvalid then some IDN2_DISALLOWED
  else none

/-! ## Labels of a domain name

Modelled from the spec (§4.4): labels are separated by the ASCII dot and
rejoined with the ASCII dot. -/

def splitSep : List Nat → List (List Nat)
  | [] => [[]]
  | c :: rest =>
    match splitSep rest with
    | [] => [[c]]
    | h :: t => if c = 46 then [] :: h :: t else (c :: h) :: t

def joinSep : List (List Nat) → List Nat
  | [] => []
  | [l] => l
  | l :: ls => l ++ 46 :: joinSep ls

/-- ASCII case folding, the only case transformation the engine applies. -/
def asciiLowerCp (c : Nat) : Nat := if 65 ≤ c ∧ c ≤ 90 then c + 32 else c

/-- The ACE marker `xn--` as code points. -/
def acePfx : List Nat := [120, 110, 45, 45]

/-- Modelled from the spec: conversion of one label to its A-label form.
An ACE-marked label is punycode-decoded and the decoded U-label validated
(an undecodable payload is an invalid A-label); otherwise the label is
case-folded, normalized (or, in NFC-input mode, rejected when not NFC),
validated, and encoded when it contains non-ASCII, with the 63-octet bound
checked on the encoded form. -/
def labelToAscii (nfcMode : Bool) (l : List Nat) : Except Int (List Nat) :=
  let ll := l.map asciiLowerCp
  if ll.take 4 = acePfx then
    match punyDecode (ll.drop 4) with
    | none => .error IDN2_INVALID_ALABEL
    | some u =>
      match checkLabelU u with
      | some rc => .error rc
      | none =>
        if 63 < ll.length then .error IDN2_TOO_BIG_LABEL
        else .ok ll
  else
    if nfcMode = true ∧ nfc ll ≠ ll then .error IDN2_NOT_NFC
    else
      match checkLabelU (nfc ll) with
      | some rc => .error rc
      | none =>
        if (nfc ll).all (fun c => c < initialN) then
          if 63 < (nfc ll).length then .error IDN2_TOO_BIG_LABEL
          else .ok (nfc ll)
        else
          match punyEncode (nfc ll) with
          | none => .error IDN2_PUNYCODE_OVERFLOW
          | some ext =>
            if 63 < (acePfx ++ ext).length then .error IDN2_TOO_BIG_LABEL
            else .ok (acePfx ++ ext)

/-- Modelled from the spec: conversion of one label to its U-label form
(`to-Unicode` pipeline §4.4): an ACE-marked label is punycode-decoded and
the decoded result validated; any other label passes through unchanged. -/
def labelToUnicode (l : List Nat) : Except Int (List Nat) :=
  let ll := l.map asciiLowerCp
  if ll.take 4 = acePfx then
    match punyDecode (ll.drop 4) with
    | none => .error IDN2_INVALID_ALABEL
    | some u =>
      match checkLabelU u with
      | some rc => .error rc
      | none => .ok u
  else .ok l

/-- Modelled from the spec: the engine pipeline shared by `to-ASCII` and
`lookup` (§4.4): split into labels, process each label, rejoin with the
ASCII dot, and enforce the 255-octet domain bound.  `nfcMode` selects
between silent normalization (to-ASCII) and rejection of non-NFC input
(lookup with `IDN2_NFC_INPUT`). -/
def toAsciiDomain (nfcMode : Bool) (s : List Nat) : Except Int (List Nat) := do
  let labels := splitSep s
  let as ← labels.mapM (labelToAscii nfcMode)
  let r := joinSep as
  if 255 < r.length then throw IDN2_TOO_BIG_DOMAIN
  else pure r

/-- Modelled from the spec: `idn2_to_ascii_8z(…, IDN2_NO_TR46)` as called
by `idn2_utoa` in `src/idn2module.c`. -/
def idn2_to_ascii_8z (s : List Nat) : Except Int (List Nat) :=
  toAsciiDomain false s

/-- Modelled from the spec: `idn2_lookup_u8(…, IDN2_NFC_INPUT)` as called
by `idn2_lookup` in `src/idn2module.c`: the to-ASCII pipeline in NFC-input
mode. -/
def idn2_lookup_u8 (s : List Nat) : Except Int (List Nat) :=
  toAsciiDomain true s

/-- Modelled from the spec: `idn2_to_unicode_8z8z(…, 0)` as called by
`idn2_atou` in `src/idn2module.c`. -/
def idn2_to_unicode_8z8z (s : List Nat) : Except Int (List Nat) := do
  let us ← (splitSep s).mapM labelToUnicode
  pure (joinSep us)

/-- Modelled from the spec: `idn2_register_u8(…, IDN2_NFC_INPUT)` as
called by `idn2_register` in `src/idn2module.c` (§4.4): derive the
canonical A-label from whichever input is present; with both inputs
present, derive from the U-label and compare byte-for-byte with the
supplied A-label, a mismatch being the distinct `IDN2_UALABEL_MISMATCH`
error.  The `none, none` case is unreachable through the wrapper, which
checks it first. -/
def idn2_register_u8 (u a : Option (List Nat)) : Except Int (List Nat) :=
  match u, a with
  | none, none => .error IDN2_INVALID_FLAGS
  | some ul, none => labelToAscii true ul
  | none, some al => do
      let u' ← labelToUnicode al
      labelToAscii true u'
  | some ul, some al => do
      let d ← labelToAscii true ul
      if al = d then pure d else throw IDN2_UALABEL_MISMATCH

/-! ## The Python boundary (`src/idn2module.c`) -/

/-- A raised Python exception: the exception object and its message. -/
structure PyErr where
  exc : String
  msg : String
deriving Repr, DecidableEq

/-- The module's single exception object, `idn2.error`. -/
def idn2ErrorName : String := "idn2.error"

/-- The error-code → message table of `setidn2errstr` in
`src/idn2module.c`, with the `PyUnicode_FromFormat("idn2 error %d", rc)`
fallback of its `default` case. -/
def setidn2errstr (rc : Int) : String :=
  if rc = IDN2_MALLOC then "Memory allocation error."
  else if rc = IDN2_NO_CODESET then "Could not determine locale string encoding format."
  else if rc = IDN2_ICONV_FAIL then "Could not transcode locale string to UTF-8."
  else if rc = IDN2_ENCODING_ERROR then "Unicode data encoding error."
  else if rc = IDN2_NFC then "Error normalizing string."
  else if rc = IDN2_PUNYCODE_BAD_INPUT then "Punycode invalid input."
  else if rc = IDN2_PUNYCODE_BIG_OUTPUT then "Punycode output buffer too small."
  else if rc = IDN2_PUNYCODE_OVERFLOW then "Punycode conversion would overflow."
  else if rc = IDN2_TOO_BIG_DOMAIN then "Domain name longer than 255 characters."
  else if rc = IDN2_TOO_BIG_LABEL then "Domain label longer than 63 characters."
  else if rc = IDN2_INVALID_ALABEL then "Input A-label is not valid."
  else if rc = IDN2_UALABEL_MISMATCH then "Input A-label and U-label does not match."
  else if rc = IDN2_INVALID_FLAGS then "Invalid combination of flags."
  else if rc = IDN2_NOT_NFC then "String is not NFC."
  else if rc = IDN2_2HYPHEN then "String has forbidden two hyphens."
  else if rc = IDN2_HYPHEN_STARTEND then "String has forbidden starting/ending hyphen."
  else if rc = IDN2_LEADING_COMBINING then "String has forbidden leading combining character."
  else if rc = IDN2_DISALLOWED then "String has disallowed character."
  else if rc = IDN2_CONTEXTJ then "String has forbidden context-j character."
  else if rc = IDN2_CONTEXTJ_NO_RULE then "String has context-j character with no rull."
  else if rc = IDN2_CONTEXTO then "String has forbidden context-o character."
  else if rc = IDN2_CONTEXTO_NO_RULE then "String has context-o character with no rull."
  else if rc = IDN2_UNASSIGNED then "String has forbidden unassigned character."
  else if rc = IDN2_BIDI then "String has forbidden bi-directional properties."
  else if rc = IDN2_DOT_IN_LABEL then "Label has forbidden dot."
  else if rc = IDN2_INVALID_TRANSITIONAL then "Label has character forbidden in transitional mode."
  else if rc = IDN2_INVALID_NONTRANSITIONAL then "Label has character forbidden in non-transitional mode)."
  else "idn2 error " ++ toString rc

/-- `utoa(str ulabel) -> bytes alabel` of `src/idn2module.c`: call
`idn2_to_ascii_8z`, return the bytes on `IDN2_OK`, otherwise raise
`idn2.error` with the message from `setidn2errstr`. -/
def idn2_utoa (s : List Nat) : Except PyErr (List Nat) :=
  match idn2_to_ascii_8z s with
  | .ok a => .ok a
  | .error rc => .error ⟨idn2ErrorName, setidn2errstr rc⟩

/-- `lookup(str ulabel) -> bytes alabel` of `src/idn2module.c`. -/
def idn2_lookup (s : List Nat) : Except PyErr (List Nat) :=
  match idn2_lookup_u8 s with
  | .ok a => .ok a
  | .error rc => .error ⟨idn2ErrorName, setidn2errstr rc⟩

/-- `register(str ulabel, bytes alabel) -> bytes rlabel` of
`src/idn2module.c`: both arguments may be null (`zz#` format); if both are
null the wrapper itself raises `idn2.error` with "Both arguments null."
and never calls the engine. -/
def idn2_register (u a : Option (List Nat)) : Except PyErr (List Nat) :=
  if u = none ∧ a = none then .error ⟨idn2ErrorName, "Both arguments null."⟩
  else
    match idn2_register_u8 u a with
    | .ok r => .ok r
    | .error rc => .error ⟨idn2ErrorName, setidn2errstr rc⟩

/-- `atou(bytes alabel) -> str ulabel` of `src/idn2module.c`. -/
def idn2_atou (s : List Nat) : Except PyErr (List Nat) :=
  match idn2_to_unicode_8z8z s with
  | .ok u => .ok u
  | .error rc => .error ⟨idn2ErrorName, setidn2errstr rc⟩

/-- A valid (multi-label) U-label domain: every label is already
case-folded, passes the IDNA2008 label validation after normalization, and
fits the label length bound. -/
def ValidULabelDomain (s : List Nat) : Prop :=
  ∀ l ∈ splitSep s,
    (∀ c ∈ l, asciiLowerCp c = c) ∧ checkLabelU (nfc l) = none ∧ l.length ≤ 63

/-- The known error codes of the `setidn2errstr` switch. -/
def idn2KnownCodes : List Int :=
  [IDN2_MALLOC, IDN2_NO_CODESET, IDN2_ICONV_FAIL, IDN2_ENCODING_ERROR, IDN2_NFC,
   IDN2_PUNYCODE_BAD_INPUT, IDN2_PUNYCODE_BIG_OUTPUT, IDN2_PUNYCODE_OVERFLOW,
   IDN2_TOO_BIG_DOMAIN, IDN2_TOO_BIG_LABEL, IDN2_INVALID_ALABEL,
   IDN2_UALABEL_MISMATCH, IDN2_INVALID_FLAGS, IDN2_NOT_NFC, IDN2_2HYPHEN,
   IDN2_HYPHEN_STARTEND, IDN2_LEADING_COMBINING, IDN2_DISALLOWED, IDN2_CONTEXTJ,
   IDN2_CONTEXTJ_NO_RULE, IDN2_CONTEXTO, IDN2_CONTEXTO_NO_RULE, IDN2_UNASSIGNED,
   IDN2_BIDI, IDN2_DOT_IN_LABEL, IDN2_INVALID_TRANSITIONAL,
   IDN2_INVALID_NONTRANSITIONAL]

/-- The four boundary operations as a call datatype, for stating
determinism across call traces. -/
inductive PyCall where
  | utoaC (s : List Nat)
  | lookupC (s : List Nat)
  | registerC (u a : Option (List Nat))
  | atouC (s : List Nat)
deriving Repr, DecidableEq

/-- Dispatch of one call to the corresponding wrapper function. -/
def execCall : PyCall → Except PyErr (List Nat)
  | .utoaC s => idn2_utoa s
  | .lookupC s => idn2_lookup s
  | .registerC u a => idn2_register u a
  | .atouC s => idn2_atou s

/-- A trace of calls against the module: each call's result in order.  The
module keeps no mutable state (its only global, the `idn2.error` exception
object, is set once at init and only read afterwards), so a trace is the
pointwise image of `execCall`. -/
def runCalls (cs : List PyCall) : List (Except PyErr (List Nat)) :=
  cs.map execCall

/-! ## Correctness of the variable-length integer codec -/

theorem threshold_pos (k bias : Nat) : 1 ≤ threshold k bias := by
  simp [threshold, tmin, tmax]

theorem threshold_le (k bias : Nat) : threshold k bias ≤ 26 := by
  simp [threshold, tmax]

theorem digitChar_lt_base {d : Nat} (hd : d < punyBase) :
    (97 ≤ digitChar d ∧ digitChar d ≤ 122) ∨
    (48 ≤ digitChar d ∧ digitChar d ≤ 57) := by
  simp only [punyBase] at hd
  unfold digitChar
  split <;> omega

theorem digitVal_digitChar {d : Nat} (hd : d < punyBase) :
    digitVal (digitChar d) = some d := by
  simp only [punyBase] at hd
  by_cases h : d < 26
  · simp only [digitChar, if_pos h, digitVal]
    rw [if_pos (by omega)]
    simp only [Nat.add_sub_cancel]
  · simp only [digitChar, if_neg h, digitVal]
    rw [if_neg (by omega), if_pos (by omega)]
    simp only [Nat.add_sub_cancel]

theorem digitChar_basic {d : Nat} (hd : d < punyBase) : digitChar d < initialN := by
  rcases digitChar_lt_base hd with h | h <;> simp [initialN] <;> omega

theorem digitChar_ne_delim {d : Nat} (hd : d < punyBase) : digitChar d ≠ 45 := by
  rcases digitChar_lt_base hd with h | h <;> omega

theorem encodeVarF_succ (fuel bias k q : Nat) :
    encodeVarF (fuel + 1) bias k q =
      if q < threshold k bias then [digitChar q]
      else
        digitChar (threshold k bias +
            (q - threshold k bias) % (punyBase - threshold k bias)) ::
          encodeVarF fuel bias (k + punyBase)
            ((q - threshold k bias) / (punyBase - threshold k bias)) := rfl

/-- The fuel in `encodeVarF` is irrelevant as long as it exceeds `q`. -/
theorem encodeVarF_congr :
    ∀ q fuel fuel' bias k, q < fuel → q < fuel' →
      encodeVarF fuel bias k q = encodeVarF fuel' bias k q := by
  intro q
  induction q using Nat.strong_induction_on with
  | _ q ih =>
    intro fuel fuel' bias k hf hf'
    match fuel, fuel' with
    | f + 1, f' + 1 =>
      rw [encodeVarF_succ, encodeVarF_succ]
      by_cases hq : q < threshold k bias
      · rw [if_pos hq, if_pos hq]
      · rw [if_neg hq, if_neg hq]
        have ht : 1 ≤ threshold k bias := threshold_pos k bias
        have hq' : (q - threshold k bias) / (punyBase - threshold k bias) ≤
            q - threshold k bias := Nat.div_le_self _ _
        have hrec := ih ((q - threshold k bias) / (punyBase - threshold k bias))
          (by omega) f f' bias (k + punyBase) (by omega) (by omega)
        rw [hrec]

/-- The recursive unfolding equation of `encodeVar`. -/
theorem encodeVar_eq (bias k q : Nat) :
    encodeVar bias k q =
      if q < threshold k bias then [digitChar q]
      else
        digitChar (threshold k bias +
            (q - threshold k bias) % (punyBase - threshold k bias)) ::
          encodeVar bias (k + punyBase)
            ((q - threshold k bias) / (punyBase - threshold k bias)) := by
  show encodeVarF (q + 1) bias k q = _
  rw [encodeVarF_succ]
  by_cases hq : q < threshold k bias
  · rw [if_pos hq, if_pos hq]
  · rw [if_neg hq, if_neg hq]
    have ht : 1 ≤ threshold k bias := threshold_pos k bias
    have hq' : (q - threshold k bias) / (punyBase - threshold k bias) ≤
        q - threshold k bias := Nat.div_le_self _ _
    have hc := encodeVarF_congr
      ((q - threshold k bias) / (punyBase - threshold k bias)) q
      ((q - threshold k bias) / (punyBase - threshold k bias) + 1) bias
      (k + punyBase) (by omega) (by omega)
    rw [hc]
    rfl

theorem encodeVar_ne_nil (bias k q : Nat) : encodeVar bias k q ≠ [] := by
  rw [encodeVar_eq]
  split <;> simp

/-- Every digit emitted by `encodeVar` is a valid digit character
(in particular basic and distinct from the delimiter). -/
theorem encodeVar_digits (bias : Nat) :
    ∀ q k, ∀ c ∈ encodeVar bias k q, ∃ d, d < punyBase ∧ c = digitChar d := by
  intro q
  induction q using Nat.strong_induction_on with
  | _ q ih =>
    intro k c hc
    rw [encodeVar_eq] at hc
    split at hc
    · rename_i hq
      simp only [List.mem_singleton] at hc
      exact ⟨q, lt_of_lt_of_le hq (le_trans (threshold_le _ _) (by simp [punyBase])), hc⟩
    · rename_i hq
      simp only [List.mem_cons] at hc
      rcases hc with hc | hc
      · refine ⟨threshold k bias + (q - threshold k bias) % (punyBase - threshold k bias), ?_, hc⟩
        have h1 := threshold_le k bias
        have h2 := threshold_pos k bias
        have h3 : (q - threshold k bias) % (punyBase - threshold k bias) <
            punyBase - threshold k bias :=
          Nat.mod_lt _ (by simp only [punyBase]; omega)
        omega
      · have ht := threshold_pos k bias
        exact ih _ (by
          have : (q - threshold k bias) / (punyBase - threshold k bias) ≤
              q - threshold k bias := Nat.div_le_self _ _
          omega) _ c hc

/-- Round-trip of the variable-length integer codec: decoding the digits
produced by `encodeVar bias k q` from accumulator `i` with weight `w` adds
exactly `q * w`, consuming exactly those digits.  The bound keeps all the
decoder's overflow checks from firing. -/
theorem decodeVar_encodeVar (bias : Nat) :
    ∀ q k w i rest, 1 ≤ w → i + q * w ≤ maxint / 35 →
    decodeVar bias k w i (encodeVar bias k q ++ rest) = some (i + q * w, rest) := by
  intro q
  induction q using Nat.strong_induction_on with
  | _ q ih =>
    intro k w i rest hw hbound
    have hdivle : maxint / 35 ≤ maxint := Nat.div_le_self _ _
    rw [encodeVar_eq]
    split
    · -- final digit: q < threshold
      rename_i hq
      have hqb : q < punyBase :=
        lt_of_lt_of_le hq (le_trans (threshold_le _ _) (by simp [punyBase]))
      simp only [List.cons_append, List.nil_append, decodeVar, digitVal_digitChar hqb]
      rw [if_neg (by omega), if_pos hq]
      rfl
    · -- continuing digit
      rename_i hq
      push_neg at hq
      simp only [List.cons_append, decodeVar]
      set t := threshold k bias with htdef
      have ht1 : 1 ≤ t := by rw [htdef]; exact threshold_pos k bias
      have ht26 : t ≤ 26 := by rw [htdef]; exact threshold_le k bias
      have hbt : 10 ≤ punyBase - t := by simp only [punyBase]; omega
      set d := t + (q - t) % (punyBase - t) with hddef
      set q' := (q - t) / (punyBase - t) with hq'def
      have hdq : d + q' * (punyBase - t) = q := by
        rw [hddef, hq'def, Nat.add_assoc, Nat.mod_add_div' (q - t) (punyBase - t)]
        omega
      have hdlt : d < punyBase := by
        have : (q - t) % (punyBase - t) < punyBase - t :=
          Nat.mod_lt _ (by omega)
        simp only [punyBase] at *
        omega
      have hdle : d ≤ q := by
        have : (q - t) % (punyBase - t) ≤ q - t := Nat.mod_le _ _
        omega
      simp only [digitVal_digitChar hdlt]
      rw [if_neg (by
        have : d * w ≤ q * w := Nat.mul_le_mul_right w hdle
        omega)]
      rw [if_neg (by omega)]
      rw [if_neg (by
        -- the weight-overflow check does not fire
        rcases Nat.eq_zero_or_pos q' with hq0 | hq0
        · have h35 : punyBase - t ≤ 35 := by simp only [punyBase]; omega
          have hqw : w ≤ q * w := Nat.le_mul_of_pos_left w (by omega)
          have : w * (punyBase - t) ≤ q * w * 35 := by
            calc w * (punyBase - t) ≤ w * 35 := Nat.mul_le_mul_left w h35
            _ ≤ q * w * 35 := Nat.mul_le_mul_right 35 hqw
          have h2 : q * w * 35 ≤ maxint / 35 * 35 :=
            Nat.mul_le_mul_right 35 (by omega)
          have h3 : maxint / 35 * 35 ≤ maxint := Nat.div_mul_le_self _ _
          omega
        · have : w * (punyBase - t) ≤ q' * (w * (punyBase - t)) :=
            Nat.le_mul_of_pos_left _ hq0
          have h2 : q' * (w * (punyBase - t)) ≤ q * w := by
            calc q' * (w * (punyBase - t)) = q' * (punyBase - t) * w := by ring
            _ ≤ q * w := Nat.mul_le_mul_right w (by omega)
          omega)]
      have hrec := ih q'
        (by
          have hle : q' ≤ q - t := Nat.div_le_self _ _
          omega)
        (k + punyBase) (w * (punyBase - t)) (i + d * w) rest
        (by have := Nat.mul_pos (show 0 < w by omega) (show 0 < punyBase - t by omega); omega)
        (by
          have : i + d * w + q' * (w * (punyBase - t)) = i + q * w := by
            have : d * w + q' * (punyBase - t) * w = q * w := by
              rw [← Nat.add_mul, hdq]
            calc i + d * w + q' * (w * (punyBase - t))
                = i + (d * w + q' * (punyBase - t) * w) := by ring
              _ = i + q * w := by rw [this]
          omega)
      simp only [List.append_eq]
      rw [hrec]
      congr 2
      have : d * w + q' * (punyBase - t) * w = q * w := by
        rw [← Nat.add_mul, hdq]
      calc i + d * w + q' * (w * (punyBase - t))
          = i + (d * w + q' * (punyBase - t) * w) := by ring
        _ = i + q * w := by rw [this]

/-! ## List infrastructure for the encoder/decoder simulation -/

theorem countP_disjoint (p q : Nat → Bool)
    (hpq : ∀ a, p a = true → q a = true → False) :
    ∀ l : List Nat, l.countP p + l.countP q ≤ l.length := by
  intro l
  induction l with
  | nil => simp
  | cons a l ih =>
    simp only [List.countP_cons, List.length_cons]
    rcases hp : p a <;> rcases hq : q a <;> simp_all <;> omega

theorem countP_impl (p q : Nat → Bool) (hpq : ∀ a, p a = true → q a = true) :
    ∀ l : List Nat, l.countP p ≤ l.countP q := by
  intro l
  induction l with
  | nil => simp
  | cons a l ih =>
    simp only [List.countP_cons]
    rcases hp : p a
    · simp; omega
    · rw [hpq a hp]; simp; omega

theorem insertIdx_append_cons (A B : List Nat) (x : Nat) :
    (A ++ B).insertIdx A.length x = A ++ x :: B := by
  induction A with
  | nil => rfl
  | cons a A ih =>
    simp only [List.cons_append, List.length_cons, List.insertIdx_succ_cons, ih]

theorem minAbove_spec (n : Nat) :
    ∀ cs : List Nat,
      (minAbove n cs = none → ∀ c ∈ cs, c < n) ∧
      (∀ m, minAbove n cs = some m →
        m ∈ cs ∧ n ≤ m ∧ ∀ c ∈ cs, n ≤ c → m ≤ c) := by
  intro cs
  induction cs with
  | nil => simp [minAbove]
  | cons c cs ih =>
    obtain ⟨ihnone, ihsome⟩ := ih
    by_cases hc : n ≤ c
    · cases hrec : minAbove n cs with
      | none =>
        constructor
        · intro hnone
          simp [minAbove, hrec, hc] at hnone
        · intro m hm
          simp only [minAbove, hrec, if_pos hc] at hm
          obtain rfl : c = m := by simpa using hm
          refine ⟨List.mem_cons_self _ _, hc, ?_⟩
          intro a ha hna
          rcases List.mem_cons.mp ha with rfl | ha
          · exact le_refl _
          · exact absurd hna (by have := ihnone hrec a ha; omega)
      | some m' =>
        obtain ⟨hmem, hnm', hmin⟩ := ihsome m' hrec
        constructor
        · intro hnone
          simp [minAbove, hrec, hc] at hnone
        · intro m hm
          simp only [minAbove, hrec, if_pos hc] at hm
          obtain rfl : min c m' = m := by simpa using hm
          refine ⟨?_, by omega, ?_⟩
          · rcases Nat.le_total c m' with h | h
            · simp [Nat.min_eq_left h]
            · rw [Nat.min_eq_right h]
              exact List.mem_cons_of_mem _ hmem
          · intro a ha hna
            rcases List.mem_cons.mp ha with rfl | ha
            · omega
            · have := hmin a ha hna; omega
    · have hstep : minAbove n (c :: cs) = minAbove n cs := by
        simp only [minAbove]
        cases hrec : minAbove n cs <;> simp [hc]
      constructor
      · intro hnone a ha
        rw [hstep] at hnone
        rcases List.mem_cons.mp ha with rfl | ha
        · omega
        · exact ihnone hnone a ha
      · intro m hm
        rw [hstep] at hm
        obtain ⟨hmem, hnm, hmin⟩ := ihsome m hm
        refine ⟨List.mem_cons_of_mem _ hmem, hnm, ?_⟩
        intro a ha hna
        rcases List.mem_cons.mp ha with rfl | ha
        · omega
        · exact hmin a ha hna

theorem minAbove_isSome {n : Nat} {cs : List Nat} {a : Nat}
    (ha : a ∈ cs) (hna : n ≤ a) : ∃ m, minAbove n cs = some m := by
  rcases h : minAbove n cs with _ | m
  · exact absurd hna (by have := (minAbove_spec n cs).1 h a ha; omega)
  · exact ⟨m, rfl⟩

theorem cntLE_eq_cntLT_add_cntEQ (l : List Nat) (m : Nat) :
    cntLE l m = cntLT l m + cntEQ l m := by
  induction l with
  | nil => simp [cntLE, cntLT, cntEQ]
  | cons a l ih =>
    simp only [cntLE, cntLT, cntEQ, List.countP_cons, decide_eq_true_eq] at *
    split_ifs <;> omega

theorem length_selLE (l : List Nat) (m : Nat) : (selLE l m).length = cntLE l m :=
  (List.countP_eq_length_filter _ _).symm

theorem length_selLT (l : List Nat) (m : Nat) : (selLT l m).length = cntLT l m :=
  (List.countP_eq_length_filter _ _).symm

theorem cntLT_le_length (l : List Nat) (m : Nat) : cntLT l m ≤ l.length :=
  List.countP_le_length _

theorem cntLE_le_length (l : List Nat) (m : Nat) : cntLE l m ≤ l.length :=
  List.countP_le_length _

theorem cntEQ_append (l₁ l₂ : List Nat) (m : Nat) :
    cntEQ (l₁ ++ l₂) m = cntEQ l₁ m + cntEQ l₂ m := List.countP_append _ _ _

theorem cntLT_append (l₁ l₂ : List Nat) (m : Nat) :
    cntLT (l₁ ++ l₂) m = cntLT l₁ m + cntLT l₂ m := List.countP_append _ _ _

theorem cntLE_append (l₁ l₂ : List Nat) (m : Nat) :
    cntLE (l₁ ++ l₂) m = cntLE l₁ m + cntLE l₂ m := List.countP_append _ _ _

theorem cntLT_add_cntEQ_le_length (l : List Nat) (m : Nat) :
    cntLT l m + cntEQ l m ≤ l.length := by
  rw [← cntLE_eq_cntLT_add_cntEQ]
  exact cntLE_le_length l m

theorem basicsOf_eq_selLT (cs : List Nat) : basicsOf cs = selLT cs initialN := rfl

/-- The number of code points below `m₁` is at most the number below
`m₂` when `m₁ ≤ m₂`. -/
theorem cntLT_mono (l : List Nat) {m₁ m₂ : Nat} (h : m₁ ≤ m₂) :
    cntLT l m₁ ≤ cntLT l m₂ := by
  apply countP_impl
  intro a ha
  simp only [decide_eq_true_eq] at *
  omega

/-- One emission of the encoder corresponds to one `decStep` of the
decoder: reading the variable-length integer carrying `delta` advances the
decoder's code point to `m` and inserts it right after the prefix `A` of
the current output. -/
theorem decStep_emit (dn di bias delta m : Nat) (A B : List Nat) (rest : List Nat)
    (hdn : dn ≤ m) (hm : m ≤ maxint)
    (hI : di + delta = (m - dn) * ((A ++ B).length + 1) + A.length)
    (hbound : di + delta ≤ maxint / 35) :
    decStep dn di bias (A ++ B) (encodeVar bias punyBase delta ++ rest) =
      some (m, A.length + 1, adapt delta ((A ++ B).length + 1) (decide (di = 0)),
        A ++ m :: B, rest) := by
  have hL : 0 < (A ++ B).length + 1 := Nat.succ_pos _
  have hidx : A.length < (A ++ B).length + 1 := by
    simp only [List.length_append]; omega
  unfold decStep
  rw [decodeVar_encodeVar bias delta punyBase 1 di rest (le_refl 1)
    (by simpa using hbound)]
  simp only [Nat.mul_one]
  have hdiv : (di + delta) / ((A ++ B).length + 1) = m - dn := by
    rw [hI, Nat.add_comm, Nat.add_mul_div_right _ _ hL,
      Nat.div_eq_of_lt hidx, Nat.zero_add]
  have hmod : (di + delta) % ((A ++ B).length + 1) = A.length := by
    rw [hI, Nat.add_comm, Nat.add_mul_mod_self_right, Nat.mod_eq_of_lt hidx]
  have hsub : di + delta - di = delta := by omega
  rw [if_neg (by rw [hdiv]; omega)]
  rw [if_neg (by rw [hmod]; simp only [List.length_append]; omega)]
  rw [hdiv, hmod, hsub]
  have hn' : dn + (m - dn) = m := by omega
  rw [hn', insertIdx_append_cons]

/-- Unfolding of `decLoop` by one step when the digit stream is nonempty
and `decStep` succeeds. -/
theorem decLoop_cons (fuel n i bias : Nat) (out : List Nat) (ds : List Nat)
    (hne : ds ≠ []) {n' i' bias' : Nat} {out' rest' : List Nat}
    (h : decStep n i bias out ds = some (n', i', bias', out', rest')) :
    decLoop (fuel + 1) n i bias out ds = decLoop fuel n' i' bias' out' rest' := by
  cases ds with
  | nil => exact absurd rfl hne
  | cons d ds => simp [decLoop, h]

/-- Simulation of one scan pass of the encoder (`for each c in the input`)
against the decoder: every emission during the pass corresponds to one
`decStep`, and the abstract invariant tying the encoder state to the
decoder state is preserved.  `pre`/`suf` are the already-scanned and
still-to-scan parts of the input `cs`, `dn`/`di` the decoder's code point
and position accumulator. -/
theorem encPass_sim (b : Nat) (cs : List Nat)
    (hlen : cs.length ≤ 63) (hcp : ∀ c ∈ cs, c < cpBound)
    (hb : b = cntLT cs initialN) :
    ∀ (suf pre : List Nat) (st : EncSt) (dn di : Nat),
      cs = pre ++ suf →
      initialN ≤ st.n → st.n < cpBound →
      dn ≤ st.n →
      st.delta + di = (st.n - dn) * (st.h + 1) + cntLE pre st.n →
      st.h = cntLT cs st.n + cntEQ pre st.n →
      (st.h = b ↔ di = 0) →
      ∃ (st' : EncSt) (dn' di' e : Nat) (D : List Nat),
        List.foldlM (encScanStep b) st suf = some st' ∧
        st'.n = st.n ∧
        st'.out = st.out ++ D ∧
        e ≤ D.length ∧
        (∀ c ∈ D, ∃ d, d < punyBase ∧ c = digitChar d) ∧
        dn' ≤ st.n ∧
        st'.delta + di' = (st.n - dn') * (st'.h + 1) + cntLE cs st.n ∧
        st'.h = cntLT cs st.n + cntEQ cs st.n ∧
        (st'.h = b ↔ di' = 0) ∧
        ∀ f (rest : List Nat),
          decLoop (f + e) dn di st.bias
              (selLE pre st.n ++ selLT suf st.n) (D ++ rest) =
            decLoop f dn' di' st'.bias (selLE cs st.n) rest := by
  intro suf
  induction suf with
  | nil =>
    intro pre st dn di hcs hn128 hncp hdn hA2 hA4 hA6
    subst hcs
    refine ⟨st, dn, di, 0, [], by simp [List.foldlM_nil], rfl, by simp, by simp,
      by simp, hdn, by simpa using hA2, by simpa using hA4, hA6, ?_⟩
    intro f rest
    simp [selLT, selLE]
  | cons c suf ih =>
    intro pre st dn di hcs hn128 hncp hdn hA2 hA4 hA6
    have hlenpre : pre.length + (c :: suf).length = cs.length := by
      rw [hcs, List.length_append]
    have hpre63 : pre.length ≤ 62 := by
      simp only [List.length_cons] at hlenpre; omega
    have hh : st.h ≤ 63 := by
      have h1 : cntEQ pre st.n + cntEQ (c :: suf) st.n = cntEQ cs st.n := by
        rw [hcs, cntEQ_append]
      have h2 := cntLT_add_cntEQ_le_length cs st.n
      omega
    have hprod : (st.n - dn) * (st.h + 1) ≤ 1114111 * 64 :=
      Nat.mul_le_mul (by simp only [cpBound] at hncp; omega) (by omega)
    have hpreLE : cntLE pre st.n ≤ 62 :=
      le_trans (cntLE_le_length pre st.n) hpre63
    have hdbound : st.delta + di ≤ 71303167 := by omega
    have hdiv35 : maxint / 35 = 122713351 := by norm_num [maxint]
    have hbge : b ≤ st.h := by
      rw [hb, hA4]
      have := cntLT_mono cs hn128
      omega
    rcases Nat.lt_trichotomy c st.n with hc | hc | hc
    · -- c < st.n : the scan counts one more already-placed code point
      have hstep : encScanStep b st c = some { st with delta := st.delta + 1 } := by
        unfold encScanStep
        rw [if_pos hc, if_neg (by simp only [maxint]; omega)]
      obtain ⟨st', dn', di', e, D, hfold, hn', hout, helen, hdig, hdn', hA2', hA4', hA6', heqn⟩ :=
        ih (pre ++ [c]) { st with delta := st.delta + 1 } dn di
          (by rw [hcs]; simp)
          hn128 hncp hdn
          (by
            show st.delta + 1 + di = (st.n - dn) * (st.h + 1) + cntLE (pre ++ [c]) st.n
            rw [cntLE_append]
            have hc1 : cntLE [c] st.n = 1 := by
              simp [cntLE, List.countP_cons, Nat.le_of_lt hc]
            omega)
          (by
            show st.h = cntLT cs st.n + cntEQ (pre ++ [c]) st.n
            rw [cntEQ_append]
            have hc0 : cntEQ [c] st.n = 0 := by
              simp [cntEQ, List.countP_cons]
              omega
            omega)
          hA6
      refine ⟨st', dn', di', e, D, ?_, hn', hout, helen, hdig, hdn', hA2', hA4', hA6', ?_⟩
      · rw [List.foldlM_cons, hstep]
        simpa using hfold
      · intro f rest
        have hsel1 : selLT (c :: suf) st.n = c :: selLT suf st.n := by
          simp [selLT, List.filter_cons, hc]
        have hsel2 : selLE (pre ++ [c]) st.n = selLE pre st.n ++ [c] := by
          simp [selLE, List.filter_append, List.filter_cons, Nat.le_of_lt hc]
        have := heqn f rest
        rw [hsel2] at this
        rw [hsel1]
        simpa [List.append_assoc] using this
    · -- c = st.n : emission
      subst hc
      set chunk := encodeVar st.bias punyBase st.delta with hchunk
      set A := selLE pre st.n with hA
      set B := selLT suf st.n with hB
      have hchne : chunk ≠ [] := encodeVar_ne_nil _ _ _
      have hchpos : 0 < chunk.length := List.length_pos.mpr hchne
      have hstep : encScanStep b st st.n = some { st with
          out := st.out ++ chunk,
          bias := adapt st.delta (st.h + 1) (decide (st.h = b)),
          delta := 0, h := st.h + 1 } := by
        unfold encScanStep
        rw [if_neg (by omega), if_pos rfl]
      have hABlen : (A ++ B).length = st.h := by
        rw [List.length_append, hA, hB, length_selLE, length_selLT]
        have h1 : cntLT cs st.n = cntLT pre st.n + cntLT suf st.n := by
          rw [hcs, cntLT_append]
          have h2 : cntLT (st.n :: suf) st.n = cntLT suf st.n := by
            simp [cntLT, List.countP_cons]
          rw [h2]
        rw [hA4, h1, cntLE_eq_cntLT_add_cntEQ]
        omega
      have hALen : A.length = cntLE pre st.n := length_selLE pre st.n
      have hI : di + st.delta =
          (st.n - dn) * ((A ++ B).length + 1) + A.length := by
        rw [hABlen, hALen]
        omega
      have hm : st.n ≤ maxint := by
        simp only [cpBound] at hncp
        simp only [maxint]
        omega
      have hbound : di + st.delta ≤ maxint / 35 := by
        rw [hdiv35]; omega
      have hcntLEc : cntLE [st.n] st.n = 1 := by simp [cntLE, List.countP_cons]
      have hcntEQc : cntEQ [st.n] st.n = 1 := by simp [cntEQ, List.countP_cons]
      obtain ⟨st', dn', di', e, D, hfold, hn', hout, helen, hdig, hdn', hA2', hA4', hA6', heqn⟩ :=
        ih (pre ++ [st.n])
          { st with
            out := st.out ++ chunk,
            bias := adapt st.delta (st.h + 1) (decide (st.h = b)),
            delta := 0, h := st.h + 1 }
          st.n (cntLE pre st.n + 1)
          (by rw [hcs]; simp)
          hn128 hncp (le_refl _)
          (by
            show (0 : Nat) + (cntLE pre st.n + 1) =
              (st.n - st.n) * (st.h + 1 + 1) + cntLE (pre ++ [st.n]) st.n
            rw [Nat.sub_self, Nat.zero_mul, cntLE_append, hcntLEc])
          (by
            show st.h + 1 = cntLT cs st.n + cntEQ (pre ++ [st.n]) st.n
            rw [cntEQ_append, hcntEQc]
            omega)
          (by
            show st.h + 1 = b ↔ cntLE pre st.n + 1 = 0
            constructor <;> intro <;> omega)
      refine ⟨st', dn', di', e + 1, chunk ++ D, ?_, hn', ?_, ?_, ?_, hdn', hA2', hA4', hA6', ?_⟩
      · rw [List.foldlM_cons, hstep]
        simpa using hfold
      · rw [hout]
        simp [List.append_assoc]
      · rw [List.length_append]
        omega
      · intro x hx
        rcases List.mem_append.mp hx with hx | hx
        · exact encodeVar_digits st.bias st.delta punyBase x hx
        · exact hdig x hx
      · intro f rest
        have hselLTc : selLT (st.n :: suf) st.n = B := by
          simp [hB, selLT, List.filter_cons]
        have hselLEc : selLE (pre ++ [st.n]) st.n = A ++ [st.n] := by
          simp [hA, selLE, List.filter_append, List.filter_cons]
        rw [hselLTc]
        have hfuel : f + (e + 1) = (f + e) + 1 := by omega
        rw [hfuel]
        have hassoc : (chunk ++ D) ++ rest = chunk ++ (D ++ rest) := by
          simp [List.append_assoc]
        rw [hassoc]
        have hne2 : chunk ++ (D ++ rest) ≠ [] := by
          intro hcontra
          have := congrArg List.length hcontra
          simp only [List.length_append, List.length_nil] at this
          omega
        have hemit := decStep_emit dn di st.bias st.delta st.n A B (D ++ rest)
          hdn hm hI hbound
        rw [decLoop_cons (f + e) dn di st.bias (A ++ B) (chunk ++ (D ++ rest)) hne2 hemit]
        have hbias : adapt st.delta ((A ++ B).length + 1) (decide (di = 0)) =
            adapt st.delta (st.h + 1) (decide (st.h = b)) := by
          rw [hABlen]
          congr 1
          rw [decide_eq_decide]
          exact hA6.symm
        rw [hbias, hALen]
        have hout2 : A ++ st.n :: B = selLE (pre ++ [st.n]) st.n ++ selLT suf st.n := by
          rw [hselLEc, ← hB]
          simp [List.append_assoc]
        rw [hout2]
        exact heqn f rest
    · -- st.n < c : the scan skips a not-yet-placed code point
      have hstep : encScanStep b st c = some st := by
        unfold encScanStep
        rw [if_neg (by omega), if_neg (by omega)]
      obtain ⟨st', dn', di', e, D, hfold, hn', hout, helen, hdig, hdn', hA2', hA4', hA6', heqn⟩ :=
        ih (pre ++ [c]) st dn di
          (by rw [hcs]; simp)
          hn128 hncp hdn
          (by
            show st.delta + di = (st.n - dn) * (st.h + 1) + cntLE (pre ++ [c]) st.n
            rw [cntLE_append]
            have hc0 : cntLE [c] st.n = 0 := by
              simp [cntLE, List.countP_cons]
              omega
            omega)
          (by
            show st.h = cntLT cs st.n + cntEQ (pre ++ [c]) st.n
            rw [cntEQ_append]
            have hc0 : cntEQ [c] st.n = 0 := by
              simp [cntEQ, List.countP_cons]
              omega
            omega)
          hA6
      refine ⟨st', dn', di', e, D, ?_, hn', hout, helen, hdig, hdn', hA2', hA4', hA6', ?_⟩
      · rw [List.foldlM_cons, hstep]
        simpa using hfold
      · intro f rest
        have hsel1 : selLT (c :: suf) st.n = selLT suf st.n := by
          simp [selLT, List.filter_cons]
          omega
        have hsel2 : selLE (pre ++ [c]) st.n = selLE pre st.n := by
          have hc0 : List.filter (fun x => decide (x ≤ st.n)) [c] = [] := by
            simp [List.filter_cons]
            omega
          simp [selLE, List.filter_append, hc0]
        have := heqn f rest
        rw [hsel2] at this
        rw [hsel1]
        exact this

theorem countP_congr_mem (p q : Nat → Bool) :
    ∀ l : List Nat, (∀ a ∈ l, p a = q a) → l.countP p = l.countP q := by
  intro l
  induction l with
  | nil => intro _; rfl
  | cons a l ih =>
    intro h
    simp only [List.countP_cons, h a (List.mem_cons_self a l),
      ih (fun x hx => h x (List.mem_cons_of_mem a hx))]

theorem cntEQ_pos_of_mem {m : Nat} {l : List Nat} (h : m ∈ l) : 0 < cntEQ l m :=
  List.countP_pos_iff.mpr ⟨m, h, by simp⟩

theorem cntLT_succ_eq_cntLE (l : List Nat) (m : Nat) : cntLT l (m + 1) = cntLE l m :=
  countP_congr_mem _ _ l (fun a _ => by simp [Nat.lt_succ_iff])

theorem selLT_succ_eq_selLE (l : List Nat) (m : Nat) : selLT l (m + 1) = selLE l m :=
  List.filter_congr (fun a _ => by simp [Nat.lt_succ_iff])

/-- Between `st.n` and the next occurring code point `m` there is nothing
to place, so the already-placed counts agree. -/
theorem cntLT_jump {cs : List Nat} {n m : Nat} (hnm : n ≤ m)
    (hmin : ∀ c ∈ cs, n ≤ c → m ≤ c) : cntLT cs m = cntLT cs n :=
  countP_congr_mem _ _ cs (fun a ha => by
    have := hmin a ha
    by_cases h : a < n <;> simp [h] <;> omega)

theorem selLT_jump {cs : List Nat} {n m : Nat} (hnm : n ≤ m)
    (hmin : ∀ c ∈ cs, n ≤ c → m ≤ c) : selLT cs m = selLT cs n :=
  List.filter_congr (fun a ha => by
    have := hmin a ha
    by_cases h : a < n <;> simp [h] <;> omega)

/-- Simulation of the full encoder loop against the decoder loop: starting
from corresponding states, the encoder succeeds and the decoder rebuilds
the entire input from the emitted digits. -/
theorem encLoop_sim (b : Nat) (cs : List Nat)
    (hlen : cs.length ≤ 63) (hcp : ∀ c ∈ cs, c < cpBound)
    (hb : b = cntLT cs initialN) :
    ∀ (fuel : Nat) (st : EncSt) (dn di : Nat),
      cs.length < fuel + st.h →
      st.h ≤ cs.length →
      initialN ≤ st.n → st.n ≤ cpBound →
      dn ≤ st.n →
      st.delta + di = (st.n - dn) * (st.h + 1) →
      st.h = cntLT cs st.n →
      (st.h = b ↔ di = 0) →
      ∃ D : List Nat,
        encLoop fuel b cs st = some (st.out ++ D) ∧
        (∀ c ∈ D, ∃ d, d < punyBase ∧ c = digitChar d) ∧
        ∀ f, decLoop (f + D.length + 1) dn di st.bias (selLT cs st.n) D = some cs := by
  intro fuel
  induction fuel with
  | zero =>
    intro st dn di hfuel hhlen _ _ _ _ _ _
    omega
  | succ fu ih =>
    intro st dn di hfuel hhlen hn128 hncp hdn hA2 hA4 hA6
    by_cases hexit : cs.length ≤ st.h
    · -- all code points handled: the encoder stops, the decoder is done
      have hall : selLT cs st.n = cs := by
        apply List.filter_eq_self.mpr
        intro a ha
        have h1 : cntLT cs st.n = cs.length := by
          have := cntLT_le_length cs st.n
          omega
        have := (List.countP_eq_length.mp h1) a ha
        simpa using this
      refine ⟨[], ?_, by simp, ?_⟩
      · rw [encLoop, if_pos hexit]
        simp
      · intro f
        rw [hall]
        rfl
    · push_neg at hexit
      -- there is an unplaced code point, so `minAbove` finds the next `m`
      have hex : ∃ c ∈ cs, st.n ≤ c := by
        by_contra hcontra
        push_neg at hcontra
        have : cntLT cs st.n = cs.length :=
          List.countP_eq_length.mpr (fun a ha => by simp [hcontra a ha])
        omega
      obtain ⟨c0, hc0, hc0n⟩ := hex
      obtain ⟨m, hmA⟩ := minAbove_isSome hc0 hc0n
      obtain ⟨hmem, hnm, hmin⟩ := (minAbove_spec st.n cs).2 m hmA
      have hmcp : m < cpBound := hcp m hmem
      have hprod1 : (st.n - dn) * (st.h + 1) ≤ 1114112 * 64 :=
        Nat.mul_le_mul (by simp only [cpBound] at hncp; omega) (by omega)
      have hprod2 : (m - st.n) * (st.h + 1) ≤ 1114112 * 64 :=
        Nat.mul_le_mul (by simp only [cpBound] at hmcp; omega) (by omega)
      have hjumpok : ¬ (maxint - st.delta < (m - st.n) * (st.h + 1)) := by
        simp only [maxint]
        omega
      have hdist : (st.n - dn) * (st.h + 1) + (m - st.n) * (st.h + 1) =
          (m - dn) * (st.h + 1) := by
        rw [← Nat.add_mul]
        congr 1
        omega
      have hcntjump : cntLT cs m = cntLT cs st.n := cntLT_jump hnm hmin
      have hseljump : selLT cs m = selLT cs st.n := selLT_jump hnm hmin
      -- one full scan pass at `m`
      obtain ⟨st', dn', di', e, D, hfold, hn', hout, helen, hdig, hdn', hA2', hA4', hA6', heqn⟩ :=
        encPass_sim b cs hlen hcp hb cs []
          { st with delta := st.delta + (m - st.n) * (st.h + 1), n := m }
          dn di rfl
          (le_trans hn128 hnm) hmcp (le_trans hdn hnm)
          (by
            show st.delta + (m - st.n) * (st.h + 1) + di =
              (m - dn) * (st.h + 1) + cntLE [] m
            have hz : cntLE [] m = 0 := rfl
            omega)
          (by
            show st.h = cntLT cs m + cntEQ [] m
            have hz : cntEQ [] m = 0 := rfl
            omega)
          hA6
      -- the pass conclusions, with the pass-state projections reduced
      have hn'' : st'.n = m := hn'
      have hdn'' : dn' ≤ m := hdn'
      have hA2'' : st'.delta + di' = (m - dn') * (st'.h + 1) + cntLE cs m := hA2'
      have hA4'' : st'.h = cntLT cs m + cntEQ cs m := hA4'
      have heqn'' : ∀ f rest,
          decLoop (f + e) dn di st.bias (selLE [] m ++ selLT cs m) (D ++ rest) =
            decLoop f dn' di' st'.bias (selLE cs m) rest := heqn
      have hstout : st'.out = st.out ++ D := hout
      have hcntLEm : cntLE cs m = cntLT cs st.n + cntEQ cs m := by
        rw [cntLE_eq_cntLT_add_cntEQ, hcntjump]
      have hEQpos : 0 < cntEQ cs m := cntEQ_pos_of_mem hmem
      have hh' : st'.h = cntLE cs m := by
        rw [hA4'', ← cntLE_eq_cntLT_add_cntEQ]
      -- the recursive call on the post-pass state
      obtain ⟨D₂, hloop₂, hdig₂, heqn₂⟩ :=
        ih { st' with delta := st'.delta + 1, n := st'.n + 1 } dn' di'
          (by
            show cs.length < fu + st'.h
            have : st.h + 1 ≤ st'.h := by
              rw [hh', hcntLEm]
              omega
            omega)
          (by
            show st'.h ≤ cs.length
            rw [hh']
            exact cntLE_le_length cs m)
          (by
            show initialN ≤ st'.n + 1
            rw [hn'']
            omega)
          (by
            show st'.n + 1 ≤ cpBound
            rw [hn'']
            omega)
          (by
            show dn' ≤ st'.n + 1
            rw [hn'']
            omega)
          (by
            show st'.delta + 1 + di' = (st'.n + 1 - dn') * (st'.h + 1)
            rw [hn'']
            have hdist2 : (m + 1 - dn') * (st'.h + 1) =
                (m - dn') * (st'.h + 1) + (st'.h + 1) := by
              have hst : m + 1 - dn' = (m - dn') + 1 := by omega
              rw [hst, Nat.add_mul, Nat.one_mul]
            have hLE : cntLE cs m = st'.h := hh'.symm
            omega)
          (by
            show st'.h = cntLT cs (st'.n + 1)
            rw [hn'']
            rw [cntLT_succ_eq_cntLE, hh'])
          hA6'
      refine ⟨D ++ D₂, ?_, ?_, ?_⟩
      · -- the encoder's step equation
        rw [encLoop]
        rw [if_neg (by omega), hmA]
        have hpass : encPass b cs
            { st with delta := st.delta + (m - st.n) * (st.h + 1), n := m } = some st' :=
          hfold
        simp only [if_neg hjumpok, hpass, hloop₂]
        rw [show ({ st' with delta := st'.delta + 1, n := st'.n + 1 } : EncSt).out
            = st'.out from rfl, hstout]
        simp [List.append_assoc]
      · intro x hx
        rcases List.mem_append.mp hx with hx | hx
        · exact hdig x hx
        · exact hdig₂ x hx
      · intro f
        have hg : f + (D ++ D₂).length + 1 = (f + (D.length - e) + D₂.length + 1) + e := by
          rw [List.length_append]
          omega
        rw [hg, ← hseljump]
        have h1 := heqn'' (f + (D.length - e) + D₂.length + 1) D₂
        have h2 : selLE [] m ++ selLT cs m = selLT cs m := by
          simp [selLE]
        rw [h2] at h1
        rw [h1]
        have h3 : decLoop (f + (D.length - e) + D₂.length + 1) dn' di' st'.bias
            (selLT cs (m + 1)) D₂ = some cs := by
          have := heqn₂ (f + (D.length - e))
          rw [hn''] at this
          exact this
        rw [selLT_succ_eq_selLE] at h3
        exact h3

theorem splitLastDelim_append (bs D : List Nat) (hD : 45 ∉ D) :
    splitLastDelim (bs ++ 45 :: D) = (bs, D) := by
  have hmem : 45 ∈ bs ++ 45 :: D := List.mem_append.mpr (Or.inr (List.mem_cons_self _ _))
  have hrev : (bs ++ 45 :: D).reverse = D.reverse ++ 45 :: bs.reverse := by
    simp
  have hidx : List.indexOf 45 (bs ++ 45 :: D).reverse = D.length := by
    rw [hrev, List.indexOf_append_of_not_mem (by simpa using hD),
      List.indexOf_cons_self]
    simp
  have hlen : (bs ++ 45 :: D).length = bs.length + 1 + D.length := by
    simp; omega
  have hj : (bs ++ 45 :: D).length - 1 - List.indexOf 45 (bs ++ 45 :: D).reverse
      = bs.length := by
    rw [hidx, hlen]; omega
  have hsplit : bs ++ 45 :: D = (bs ++ [45]) ++ D := by simp
  unfold splitLastDelim
  rw [if_pos hmem, hj]
  show (List.take bs.length (bs ++ 45 :: D), List.drop (bs.length + 1) (bs ++ 45 :: D))
      = (bs, D)
  congr 1
  · exact List.take_left bs (45 :: D)
  · rw [hsplit, show bs.length + 1 = (bs ++ [45]).length by simp]
    exact List.drop_left _ D

theorem splitLastDelim_no_delim (D : List Nat) (hD : 45 ∉ D) :
    splitLastDelim D = ([], D) := by
  unfold splitLastDelim
  rw [if_neg hD]

/-- Round-trip of the punycode codec on inputs within the length bounds:
encoding succeeds (no overflow check fires) and decoding the result gives
back exactly the input code points. -/
theorem punyEncode_decode (cs : List Nat) (hlen : cs.length ≤ 63)
    (hcp : ∀ c ∈ cs, c < cpBound) :
    ∃ A, punyEncode cs = some A ∧ punyDecode A = some cs ∧
      ∀ c ∈ A, c ∈ basicsOf cs ∨ c = 45 ∨ ∃ d, d < punyBase ∧ c = digitChar d := by
  have hb : (basicsOf cs).length = cntLT cs initialN := by
    rw [basicsOf_eq_selLT, length_selLT]
  obtain ⟨D, hloop, hdig, heqn⟩ :=
    encLoop_sim (basicsOf cs).length cs hlen hcp hb (cs.length + 1)
      ⟨initialN, 0, (basicsOf cs).length, initialBias, []⟩ initialN 0
      (by
        show cs.length < cs.length + 1 + (basicsOf cs).length
        omega)
      (by
        show (basicsOf cs).length ≤ cs.length
        rw [hb]
        exact cntLT_le_length cs initialN)
      (le_refl _)
      (by show initialN ≤ cpBound; simp [initialN, cpBound])
      (le_refl _)
      (by show (0 : Nat) + 0 = (initialN - initialN) * _ + _ ; simp)
      (by show (basicsOf cs).length = cntLT cs initialN; exact hb)
      (by simp)
  have hD45 : 45 ∉ D := by
    intro hmem
    obtain ⟨d, hd, hcd⟩ := hdig 45 hmem
    exact digitChar_ne_delim hd hcd.symm
  have hdec : decLoop (D.length + 1) initialN 0 initialBias (basicsOf cs) D
      = some cs := by
    have := heqn 0
    rw [show (⟨initialN, 0, (basicsOf cs).length, initialBias, []⟩ : EncSt).bias
        = initialBias from rfl] at this
    rw [show (⟨initialN, 0, (basicsOf cs).length, initialBias, []⟩ : EncSt).n
        = initialN from rfl] at this
    rw [← basicsOf_eq_selLT] at this
    simpa using this
  have hbasic : (basicsOf cs).all (fun c => c < initialN) := by
    apply List.all_eq_true.mpr
    intro c hc
    have := List.of_mem_filter hc
    simpa using this
  have hloop' : encLoop (cs.length + 1) (basicsOf cs).length cs
      ⟨initialN, 0, (basicsOf cs).length, initialBias, []⟩ = some D := by
    rw [hloop]
    rfl
  by_cases hbs : 0 < (basicsOf cs).length
  · refine ⟨basicsOf cs ++ 45 :: D, ?_, ?_, ?_⟩
    · simp only [punyEncode, hloop', if_pos hbs]
    · simp only [punyDecode, splitLastDelim_append _ _ hD45, hbasic, if_pos]
      exact hdec
    · intro c hc
      rcases List.mem_append.mp hc with hc | hc
      · exact Or.inl hc
      · rcases List.mem_cons.mp hc with rfl | hc
        · exact Or.inr (Or.inl rfl)
        · exact Or.inr (Or.inr (hdig c hc))
  · have hbs0 : basicsOf cs = [] := List.length_eq_zero.mp (by omega)
    refine ⟨D, ?_, ?_, ?_⟩
    · simp only [punyEncode, hloop', if_neg hbs]
    · simp only [punyDecode, splitLastDelim_no_delim _ hD45]
      rw [hbs0] at hdec
      simpa using hdec
    · intro c hc
      exact Or.inr (Or.inr (hdig c hc))

/-! ## Properties of label splitting and joining -/

theorem splitSep_ne_nil : ∀ s : List Nat, splitSep s ≠ [] := by
  intro s
  cases s with
  | nil => simp [splitSep]
  | cons c rest =>
    simp only [splitSep]
    cases splitSep rest with
    | nil => simp
    | cons a t =>
      show (if c = 46 then [] :: a :: t else (c :: a) :: t) ≠ []
      by_cases hc : c = 46
      · rw [if_pos hc]; simp
      · rw [if_neg hc]; simp

theorem splitSep_no_sep : ∀ s : List Nat, 46 ∉ s → splitSep s = [s] := by
  intro s
  induction s with
  | nil => intro _; rfl
  | cons c rest ih =>
    intro h
    have hc : c ≠ 46 := fun hc => h (hc ▸ List.mem_cons_self c rest)
    have hrest : 46 ∉ rest := fun hr => h (List.mem_cons_of_mem c hr)
    simp only [splitSep, ih hrest]
    rw [if_neg hc]

theorem splitSep_append_sep (xs : List Nat) (r : List Nat) (hxs : 46 ∉ xs) :
    splitSep (xs ++ 46 :: r) = xs :: splitSep r := by
  induction xs with
  | nil =>
    simp only [List.nil_append, splitSep]
    cases h : splitSep r with
    | nil => exact absurd h (splitSep_ne_nil r)
    | cons a t => simp
  | cons x xs ih =>
    have hx : x ≠ 46 := fun hc => hxs (hc ▸ List.mem_cons_self x xs)
    have hxs' : 46 ∉ xs := fun hr => hxs (List.mem_cons_of_mem x hr)
    show splitSep (x :: (xs ++ 46 :: r)) = (x :: xs) :: splitSep r
    simp only [splitSep, ih hxs']
    rw [if_neg hx]

theorem splitSep_joinSep : ∀ ps : List (List Nat), ps ≠ [] →
    (∀ p ∈ ps, 46 ∉ p) → splitSep (joinSep ps) = ps := by
  intro ps
  induction ps with
  | nil => intro h; exact absurd rfl h
  | cons p ps ih =>
    intro _ hm
    cases ps with
    | nil =>
      show splitSep (joinSep [p]) = [p]
      exact splitSep_no_sep p (hm p (List.mem_cons_self _ _))
    | cons q qs =>
      show splitSep (p ++ 46 :: joinSep (q :: qs)) = p :: q :: qs
      rw [splitSep_append_sep p _ (hm p (List.mem_cons_self _ _))]
      rw [ih (by simp) (fun x hx => hm x (List.mem_cons_of_mem p hx))]

theorem joinSep_splitSep : ∀ s : List Nat, joinSep (splitSep s) = s := by
  intro s
  induction s with
  | nil => rfl
  | cons c rest ih =>
    simp only [splitSep]
    cases h : splitSep rest with
    | nil => exact absurd h (splitSep_ne_nil rest)
    | cons a t =>
      rw [h] at ih
      show joinSep (if c = 46 then [] :: a :: t else (c :: a) :: t) = c :: rest
      by_cases hc : c = 46
      · rw [if_pos hc]
        subst hc
        show [] ++ 46 :: joinSep (a :: t) = 46 :: rest
        rw [ih]
        rfl
      · rw [if_neg hc]
        cases t with
        | nil =>
          show c :: a = c :: rest
          have ha : a = rest := by simpa using ih
          rw [ha]
        | cons b t' =>
          show (c :: a) ++ 46 :: joinSep (b :: t') = c :: rest
          have ha : a ++ 46 :: joinSep (b :: t') = rest := ih
          simp [← ha]

theorem mem_splitSep_no_sep : ∀ s : List Nat, ∀ p ∈ splitSep s, 46 ∉ p := by
  intro s
  induction s with
  | nil =>
    intro p hp
    simp [splitSep] at hp
    simp [hp]
  | cons c rest ih =>
    intro p hp
    simp only [splitSep] at hp
    cases h : splitSep rest with
    | nil => exact absurd h (splitSep_ne_nil rest)
    | cons a t =>
      rw [h] at hp
      replace hp : p ∈ (if c = 46 then [] :: a :: t else (c :: a) :: t) := hp
      by_cases hc : c = 46
      · rw [if_pos hc] at hp
        rcases List.mem_cons.mp hp with rfl | hp
        · simp
        · exact ih p (h ▸ hp)
      · rw [if_neg hc] at hp
        rcases List.mem_cons.mp hp with rfl | hp
        · intro hmem
          rcases List.mem_cons.mp hmem with h46 | h46
          · exact hc h46.symm
          · exact ih a (h ▸ List.mem_cons_self a t) h46
        · exact ih p (h ▸ List.mem_cons_of_mem a hp)

/-! ## Properties of the NFC model -/

theorem nfc_nil : nfc [] = [] := rfl

theorem nfc_single (a : Nat) : nfc [a] = [a] := rfl

theorem nfcF_succ_cons2 (fuel a b : Nat) (rest : List Nat) :
    nfcF (fuel + 1) (a :: b :: rest) =
      match compose2 a b with
      | some c => nfcF fuel (c :: rest)
      | none => a :: nfcF fuel (b :: rest) := rfl

theorem nfc_cons2_some {a b c : Nat} (h : compose2 a b = some c) (rest : List Nat) :
    nfc (a :: b :: rest) = nfc (c :: rest) := by
  show nfcF (a :: b :: rest).length (a :: b :: rest) = nfc (c :: rest)
  have hl : (a :: b :: rest).length = rest.length + 1 + 1 := by simp
  rw [hl, nfcF_succ_cons2, h]
  rfl

theorem nfc_cons2_none {a b : Nat} (h : compose2 a b = none) (rest : List Nat) :
    nfc (a :: b :: rest) = a :: nfc (b :: rest) := by
  show nfcF (a :: b :: rest).length (a :: b :: rest) = a :: nfc (b :: rest)
  have hl : (a :: b :: rest).length = rest.length + 1 + 1 := by simp
  rw [hl, nfcF_succ_cons2, h]
  rfl

theorem nfc_length_le : ∀ l : List Nat, (nfc l).length ≤ l.length := by
  intro l
  generalize hn : l.length = n
  induction n using Nat.strong_induction_on generalizing l with
  | _ n ih =>
    match l with
    | [] =>
      rw [nfc_nil]
      exact hn.le
    | [a] =>
      rw [nfc_single]
      exact hn.le
    | a :: b :: rest =>
      simp only [List.length_cons] at hn
      cases hc : compose2 a b with
      | some c =>
        rw [nfc_cons2_some hc]
        have h1 := ih (c :: rest).length (by simp; omega) (c :: rest) rfl
        simp only [List.length_cons] at h1 ⊢
        omega
      | none =>
        rw [nfc_cons2_none hc]
        have h1 := ih (b :: rest).length (by simp; omega) (b :: rest) rfl
        simp only [List.length_cons] at h1 ⊢
        omega

theorem compose2_some {a b c : Nat} (h : compose2 a b = some c) :
    (a = 97 ∨ a = 101 ∨ a = 111) ∧ b = 769 ∧ (c = 225 ∨ c = 233 ∨ c = 243) := by
  unfold compose2 at h
  split_ifs at h <;> simp_all

/-- Everything in `nfc l` is either in `l` or a composition output. -/
theorem nfc_all (p : Nat → Prop)
    (hcomp : ∀ a b c, compose2 a b = some c → p c) :
    ∀ l : List Nat, (∀ x ∈ l, p x) → ∀ x ∈ nfc l, p x := by
  intro l
  generalize hn : l.length = n
  induction n using Nat.strong_induction_on generalizing l with
  | _ n ih =>
    match l with
    | [] =>
      intro h x hx
      rw [nfc_nil] at hx
      simp at hx
    | [a] =>
      intro h x hx
      rw [nfc_single] at hx
      rw [List.mem_singleton] at hx
      exact hx ▸ h a (by simp)
    | a :: b :: rest =>
      simp only [List.length_cons] at hn
      intro h x hx
      cases hc : compose2 a b with
      | some c =>
        rw [nfc_cons2_some hc] at hx
        refine ih (c :: rest).length (by simp; omega) (c :: rest) rfl ?_ x hx
        intro y hy
        rcases List.mem_cons.mp hy with rfl | hy
        · exact hcomp a b y hc
        · exact h y (by simp [hy])
      | none =>
        rw [nfc_cons2_none hc] at hx
        rcases List.mem_cons.mp hx with rfl | hx
        · exact h x (by simp)
        · refine ih (b :: rest).length (by simp; omega) (b :: rest) rfl ?_ x hx
          intro y hy
          exact h y (List.mem_cons_of_mem a hy)

/-- If no two adjacent code points compose, `nfc` is the identity. -/
theorem nfc_eq_self_of_no_pair :
    ∀ l : List Nat, (∀ a b, [a, b] <:+: l → compose2 a b = none) → nfc l = l := by
  intro l
  generalize hn : l.length = n
  induction n using Nat.strong_induction_on generalizing l with
  | _ n ih =>
    match l with
    | [] => intro _; rw [nfc_nil]
    | [a] => intro _; rw [nfc_single]
    | a :: b :: rest =>
      simp only [List.length_cons] at hn
      intro h
      rw [nfc_cons2_none (h a b ⟨[], rest, rfl⟩)]
      rw [ih (b :: rest).length (by simp; omega) (b :: rest) rfl ?_]
      intro x y hxy
      exact h x y (hxy.trans (List.suffix_cons a (b :: rest)).isInfix)

/-- Conversely, if `nfc` is the identity then no adjacent pair composes. -/
theorem no_pair_of_nfc_eq_self :
    ∀ l : List Nat, nfc l = l → ∀ a b, [a, b] <:+: l → compose2 a b = none := by
  intro l
  generalize hn : l.length = n
  induction n using Nat.strong_induction_on generalizing l with
  | _ n ih =>
    match l with
    | [] =>
      intro _ a b hab
      have := hab.length_le
      simp at this
    | [x] =>
      intro _ a b hab
      have := hab.length_le
      simp at this
    | x :: y :: rest =>
      simp only [List.length_cons] at hn
      intro heq a b hab
      cases hc : compose2 x y with
      | some c =>
        exfalso
        rw [nfc_cons2_some hc] at heq
        have h1 := nfc_length_le (c :: rest)
        have h2 := congrArg List.length heq
        simp only [List.length_cons] at h1 h2
        omega
      | none =>
        rw [nfc_cons2_none hc] at heq
        have htl : nfc (y :: rest) = y :: rest := by
          injection heq
        rcases hab with ⟨s, t, hst⟩
        cases s with
        | nil =>
          simp at hst
          obtain ⟨rfl, rfl, _⟩ := hst
          exact hc
        | cons s0 s' =>
          simp only [List.cons_append, List.cons.injEq] at hst
          obtain ⟨rfl, hrest⟩ := hst
          refine ih (y :: rest).length (by simp; omega) (y :: rest) rfl htl a b ⟨s', t, ?_⟩
          simpa using hrest

/-- Composition skips the label separator, so `nfc` distributes over it. -/
theorem nfc_append_sep : ∀ xs ys : List Nat,
    nfc (xs ++ 46 :: ys) = nfc xs ++ 46 :: nfc ys := by
  have hsep2 : ∀ y, compose2 46 y = none := by
    intro y
    unfold compose2
    split_ifs <;> simp_all
  have hsep1 : ∀ a, compose2 a 46 = none := by
    intro a
    unfold compose2
    split_ifs <;> simp_all
  have hsepcons : ∀ ys : List Nat, nfc (46 :: ys) = 46 :: nfc ys := by
    intro ys
    cases ys with
    | nil => rw [nfc_single, nfc_nil]
    | cons y ys' => rw [nfc_cons2_none (hsep2 y)]
  intro xs
  generalize hn : xs.length = n
  induction n using Nat.strong_induction_on generalizing xs with
  | _ n ih =>
    match xs with
    | [] =>
      intro ys
      show nfc (46 :: ys) = nfc [] ++ 46 :: nfc ys
      rw [hsepcons, nfc_nil]
      rfl
    | [a] =>
      intro ys
      show nfc (a :: 46 :: ys) = nfc [a] ++ 46 :: nfc ys
      rw [nfc_cons2_none (hsep1 a), hsepcons, nfc_single]
      rfl
    | a :: b :: rest =>
      simp only [List.length_cons] at hn
      intro ys
      show nfc (a :: b :: (rest ++ 46 :: ys)) = nfc (a :: b :: rest) ++ 46 :: nfc ys
      cases hc : compose2 a b with
      | some c =>
        rw [nfc_cons2_some hc, nfc_cons2_some hc]
        exact ih (c :: rest).length (by simp; omega) (c :: rest) rfl ys
      | none =>
        rw [nfc_cons2_none hc, nfc_cons2_none hc]
        rw [show (a :: nfc (b :: rest)) ++ 46 :: nfc ys
            = a :: (nfc (b :: rest) ++ 46 :: nfc ys) from rfl]
        rw [← ih (b :: rest).length (by simp; omega) (b :: rest) rfl ys]
        rfl

/-- `nfc` of a joined domain is the join of the per-label `nfc`s. -/
theorem nfc_joinSep : ∀ ps : List (List Nat),
    nfc (joinSep ps) = joinSep (ps.map nfc) := by
  intro ps
  induction ps with
  | nil => simp [joinSep, nfc_nil]
  | cons p ps ih =>
    cases ps with
    | nil => rfl
    | cons q qs =>
      show nfc (p ++ 46 :: joinSep (q :: qs))
          = nfc p ++ 46 :: joinSep ((q :: qs).map nfc)
      rw [nfc_append_sep, ih]

/-! ## Helpers for `Except` and `mapM` -/

theorem exceptBind_ok {α β : Type} (a : α) (f : α → Except Int β) :
    (Except.ok a >>= f : Except Int β) = f a := rfl

theorem exceptBind_err {α β : Type} (e : Int) (f : α → Except Int β) :
    (Except.error e >>= f : Except Int β) = .error e := rfl

theorem mapM_ok_forall {α β : Type} {f : α → Except Int β} :
    ∀ (ls : List α) (as : List β), ls.mapM f = .ok as →
      List.Forall₂ (fun l a => f l = .ok a) ls as := by
  intro ls
  induction ls with
  | nil =>
    intro as h
    rw [List.mapM_nil] at h
    have h2 : ([] : List β) = as := by
      have : (pure [] : Except Int (List β)) = .ok [] := rfl
      rw [this] at h
      exact (Except.ok.injEq _ _).mp h
    rw [← h2]
    exact List.Forall₂.nil
  | cons x xs ih =>
    intro as h
    rw [List.mapM_cons] at h
    cases hfx : f x with
    | error e =>
      rw [hfx] at h
      rw [exceptBind_err] at h
      exact absurd h (by simp)
    | ok y =>
      rw [hfx] at h
      rw [exceptBind_ok] at h
      cases hrest : xs.mapM f with
      | error e =>
        rw [hrest] at h
        rw [exceptBind_err] at h
        exact absurd h (by simp)
      | ok ys =>
        rw [hrest] at h
        rw [exceptBind_ok] at h
        have h2 : (y :: ys : List β) = as := by
          have : (pure (y :: ys) : Except Int (List β)) = .ok (y :: ys) := rfl
          rw [this] at h
          exact (Except.ok.injEq _ _).mp h
        rw [← h2]
        exact List.Forall₂.cons hfx (ih ys hrest)

theorem forall_mapM_ok {α β : Type} {f : α → Except Int β} :
    ∀ {ls : List α} {as : List β},
      List.Forall₂ (fun l a => f l = .ok a) ls as → ls.mapM f = .ok as := by
  intro ls as h
  induction h with
  | nil => rfl
  | cons hla _ ih =>
    rw [List.mapM_cons, hla, exceptBind_ok, ih, exceptBind_ok]
    rfl

/-! ## Facts about case folding and validation -/

theorem asciiLowerCp_idem (c : Nat) :
    asciiLowerCp (asciiLowerCp c) = asciiLowerCp c := by
  unfold asciiLowerCp
  split_ifs <;> omega

theorem asciiLowerCp_lt_128 {c : Nat} : asciiLowerCp c < 128 ↔ c < 128 := by
  unfold asciiLowerCp
  split_ifs <;> omega

theorem asciiLowerCp_ne_46 {c : Nat} : asciiLowerCp c = 46 ↔ c = 46 := by
  unfold asciiLowerCp
  split_ifs <;> omega

theorem map_lower_id {l : List Nat} (h : ∀ c ∈ l, asciiLowerCp c = c) :
    l.map asciiLowerCp = l := by
  induction l with
  | nil => rfl
  | cons c rest ih =>
    simp only [List.map_cons, h c (List.mem_cons_self _ _),
      ih (fun x hx => h x (List.mem_cons_of_mem c hx))]

theorem checkLabelU_none_all_pvalid {l : List Nat} (h : checkLabelU l = none) :
    ∀ c ∈ l, pvalid c = true := by
  unfold checkLabelU at h
  split_ifs at h <;> simp_all

theorem pvalid_lt_cpBound {c : Nat} (h : pvalid c = true) : c < cpBound := by
  unfold pvalid at h
  rw [decide_eq_true_eq] at h
  simp only [cpBound] at h ⊢
  omega

theorem pvalid_ne_46 {c : Nat} (h : pvalid c = true) : c ≠ 46 := by
  unfold pvalid at h
  rw [decide_eq_true_eq] at h
  omega

theorem pvalid_lower_fixed {c : Nat} (h : pvalid c = true) : asciiLowerCp c = c := by
  unfold pvalid at h
  rw [decide_eq_true_eq] at h
  unfold asciiLowerCp
  split_ifs <;> omega

/-- `xn--`-prefixed labels are rejected by the U-label validator (the
two-hyphens-at-3-4 rule). -/
theorem checkLabelU_ace {l : List Nat} (h : l.take 4 = acePfx) :
    checkLabelU l = some IDN2_2HYPHEN := by
  have hlen : 4 ≤ l.length := by
    have := congrArg List.length h
    simp only [List.length_take, acePfx] at this
    simp at this
    omega
  match l, hlen with
  | a :: b :: c :: d :: rest, _ =>
    simp only [List.take, acePfx, List.cons.injEq] at h
    obtain ⟨rfl, rfl, rfl, rfl, _⟩ := h
    unfold checkLabelU
    rw [if_pos ⟨rfl, rfl⟩]

theorem compose2_fst_not_key {a b : Nat} (h : a ≠ 97 ∧ a ≠ 101 ∧ a ≠ 111) :
    compose2 a b = none := by
  unfold compose2
  split_ifs <;> simp_all

/-- `nfc` keeps an `xn--` prefix in place. -/
theorem nfc_ace_take {l : List Nat} (h : l.take 4 = acePfx) :
    (nfc l).take 4 = acePfx := by
  have hlen : 4 ≤ l.length := by
    have := congrArg List.length h
    simp only [List.length_take, acePfx] at this
    simp at this
    omega
  match l, hlen with
  | a :: b :: c :: d :: rest, _ =>
    simp only [List.take, acePfx, List.cons.injEq] at h
    obtain ⟨rfl, rfl, rfl, rfl, _⟩ := h
    rw [nfc_cons2_none (by decide), nfc_cons2_none (by decide),
      nfc_cons2_none (by decide)]
    cases rest with
    | nil => rw [nfc_single]; rfl
    | cons r rest' =>
      rw [nfc_cons2_none (compose2_fst_not_key (by omega))]
      rfl

theorem digitChar_lower_fixed {d : Nat} (hd : d < punyBase) :
    asciiLowerCp (digitChar d) = digitChar d := by
  rcases digitChar_lt_base hd with h | h <;> (unfold asciiLowerCp; split_ifs <;> omega)

theorem digitChar_ne_46 {d : Nat} (hd : d < punyBase) : digitChar d ≠ 46 := by
  rcases digitChar_lt_base hd with h | h <;> omega

/-- Per-label round-trip: a valid U-label that `labelToAscii` converts
successfully is recovered, in NFC form, by `labelToUnicode`, and the
A-label contains no separator. -/
theorem labelToAscii_roundtrip {l a : List Nat}
    (hlow : ∀ c ∈ l, asciiLowerCp c = c)
    (hchk : checkLabelU (nfc l) = none)
    (hlen : l.length ≤ 63)
    (h : labelToAscii false l = .ok a) :
    labelToUnicode a = .ok (nfc l) ∧ 46 ∉ a := by
  have hll : l.map asciiLowerCp = l := map_lower_id hlow
  have hace : l.take 4 ≠ acePfx := by
    intro hace
    rw [checkLabelU_ace (nfc_ace_take hace)] at hchk
    exact absurd hchk (by simp)
  have hpv : ∀ c ∈ nfc l, pvalid c = true := checkLabelU_none_all_pvalid hchk
  have hnfclow : ∀ c ∈ nfc l, asciiLowerCp c = c :=
    fun c hc => pvalid_lower_fixed (hpv c hc)
  have hnfcace : (nfc l).take 4 ≠ acePfx := by
    intro hc
    rw [checkLabelU_ace hc] at hchk
    exact absurd hchk (by simp)
  have hnfc46 : 46 ∉ nfc l := fun hc => pvalid_ne_46 (hpv 46 hc) rfl
  unfold labelToAscii at h
  rw [hll, if_neg hace, if_neg (by simp)] at h
  replace h : (match checkLabelU (nfc l) with
    | some rc => (.error rc : Except Int (List Nat))
    | none =>
      if (nfc l).all (fun c => c < initialN) then
        if 63 < (nfc l).length then .error IDN2_TOO_BIG_LABEL
        else .ok (nfc l)
      else
        match punyEncode (nfc l) with
        | none => .error IDN2_PUNYCODE_OVERFLOW
        | some ext =>
          if 63 < (acePfx ++ ext).length then .error IDN2_TOO_BIG_LABEL
          else .ok (acePfx ++ ext)) = .ok a := h
  rw [hchk] at h
  replace h : (if (nfc l).all (fun c => c < initialN) then
      if 63 < (nfc l).length then (.error IDN2_TOO_BIG_LABEL : Except Int (List Nat))
      else .ok (nfc l)
    else
      match punyEncode (nfc l) with
      | none => .error IDN2_PUNYCODE_OVERFLOW
      | some ext =>
        if 63 < (acePfx ++ ext).length then .error IDN2_TOO_BIG_LABEL
        else .ok (acePfx ++ ext)) = .ok a := h
  have hnl : (nfc l).length ≤ 63 := le_trans (nfc_length_le l) hlen
  by_cases hbasic : (nfc l).all (fun c => c < initialN) = true
  · rw [if_pos hbasic, if_neg (by omega)] at h
    obtain rfl : nfc l = a := (Except.ok.injEq _ _).mp h
    refine ⟨?_, hnfc46⟩
    unfold labelToUnicode
    rw [map_lower_id hnfclow, if_neg hnfcace]
  · rw [if_neg hbasic] at h
    cases hpe : punyEncode (nfc l) with
    | none =>
      rw [hpe] at h
      exact absurd h (by simp)
    | some ext =>
      rw [hpe] at h
      replace h : (if 63 < (acePfx ++ ext).length then
          (.error IDN2_TOO_BIG_LABEL : Except Int (List Nat))
        else .ok (acePfx ++ ext)) = .ok a := h
      by_cases hlena : 63 < (acePfx ++ ext).length
      · rw [if_pos hlena] at h
        exact absurd h (by simp)
      · rw [if_neg hlena] at h
        obtain rfl : acePfx ++ ext = a := (Except.ok.injEq _ _).mp h
        obtain ⟨A, hA, hAdec, hAmem⟩ := punyEncode_decode (nfc l) hnl
          (fun c hc => pvalid_lt_cpBound (hpv c hc))
        rw [hpe] at hA
        obtain rfl : ext = A := (Option.some.injEq _ _).mp hA
        have hextlow : ∀ c ∈ ext, asciiLowerCp c = c := by
          intro c hc
          rcases hAmem c hc with hc2 | hc2 | ⟨d, hd, rfl⟩
          · exact hnfclow c (List.mem_of_mem_filter hc2)
          · subst hc2; rfl
          · exact digitChar_lower_fixed hd
        have hmaplower : (acePfx ++ ext).map asciiLowerCp = acePfx ++ ext := by
          rw [List.map_append]
          rw [map_lower_id hextlow]
          rfl
        have htake : (acePfx ++ ext).take 4 = acePfx := by
          rw [show (4 : Nat) = acePfx.length from rfl]
          exact List.take_left acePfx ext
        have hdrop : (acePfx ++ ext).drop 4 = ext := by
          rw [show (4 : Nat) = acePfx.length from rfl]
          exact List.drop_left acePfx ext
        constructor
        · unfold labelToUnicode
          rw [hmaplower, if_pos htake, hdrop, hAdec]
          show (match checkLabelU (nfc l) with
            | some rc => (Except.error rc : Except Int (List Nat))
            | none => Except.ok (nfc l)) = Except.ok (nfc l)
          rw [hchk]
        · intro hc
          rcases List.mem_append.mp hc with hc | hc
          · simp [acePfx] at hc
          · rcases hAmem 46 hc with hc2 | hc2 | ⟨d, hd, hdc⟩
            · exact hnfc46 (List.mem_of_mem_filter hc2)
            · exact absurd hc2 (by omega)
            · exact digitChar_ne_46 hd hdc.symm

/-- Inversion of the Python wrapper on the success path. -/
theorem wrapper_ok_inv {eng : Except Int (List Nat)} {a : List Nat}
    (h : (match eng with
      | .ok v => (.ok v : Except PyErr (List Nat))
      | .error rc => .error ⟨idn2ErrorName, setidn2errstr rc⟩) = .ok a) :
    eng = .ok a := by
  cases eng with
  | ok v => simpa using h
  | error rc => simp at h

theorem atou_labels :
    ∀ {ls as : List (List Nat)},
      List.Forall₂ (fun l a => labelToAscii false l = .ok a) ls as →
      (∀ l ∈ ls,
        (∀ c ∈ l, asciiLowerCp c = c) ∧ checkLabelU (nfc l) = none ∧ l.length ≤ 63) →
      List.Forall₂ (fun a u => labelToUnicode a = .ok u) as (ls.map nfc) ∧
        ∀ p ∈ as, 46 ∉ p := by
  intro ls as hfa
  induction hfa with
  | nil => intro _; exact ⟨List.Forall₂.nil, by simp⟩
  | cons hla hrest ih =>
    rename_i l a ls' as'
    intro hv
    obtain ⟨h1, h2, h3⟩ := hv l (List.mem_cons_self _ _)
    obtain ⟨hrt, hna⟩ := labelToAscii_roundtrip h1 h2 h3 hla
    obtain ⟨ihf, ihd⟩ := ih (fun x hx => hv x (List.mem_cons_of_mem _ hx))
    refine ⟨List.Forall₂.cons hrt ihf, ?_⟩
    intro p hp
    rcases List.mem_cons.mp hp with rfl | hp
    · exact hna
    · exact ihd p hp

theorem utoa_engine_roundtrip {s a : List Nat} (hv : ValidULabelDomain s)
    (heng : idn2_to_ascii_8z s = .ok a) :
    idn2_to_unicode_8z8z a = .ok (nfc s) := by
  have heng2 : ((splitSep s).mapM (labelToAscii false) >>= fun as =>
      if 255 < (joinSep as).length then throw IDN2_TOO_BIG_DOMAIN
      else pure (joinSep as)) = .ok a := heng
  cases hmapM : (splitSep s).mapM (labelToAscii false) with
  | error e =>
    rw [hmapM, exceptBind_err] at heng2
    exact absurd heng2 (by simp)
  | ok as =>
    rw [hmapM, exceptBind_ok] at heng2
    by_cases hbig : 255 < (joinSep as).length
    · rw [if_pos hbig] at heng2
      replace heng2 : (Except.error IDN2_TOO_BIG_DOMAIN : Except Int (List Nat))
          = .ok a := heng2
      exact absurd heng2 (by simp)
    · rw [if_neg hbig] at heng2
      replace heng2 : Except.ok (joinSep as) = .ok a := heng2
      obtain rfl : joinSep as = a := (Except.ok.injEq _ _).mp heng2
      have hfa := mapM_ok_forall _ _ hmapM
      obtain ⟨hfu, hdots⟩ := atou_labels hfa hv
      have hasne : as ≠ [] := by
        intro hnil
        have hlen := hfa.length_eq
        rw [hnil] at hlen
        simp only [List.length_nil] at hlen
        exact splitSep_ne_nil s (List.length_eq_zero.mp hlen)
      have hsplita : splitSep (joinSep as) = as := splitSep_joinSep as hasne hdots
      unfold idn2_to_unicode_8z8z
      have hmm : (splitSep (joinSep as)).mapM labelToUnicode
          = .ok ((splitSep s).map nfc) := by
        rw [hsplita]
        exact forall_mapM_ok hfu
      show ((splitSep (joinSep as)).mapM labelToUnicode >>= fun us =>
        pure (joinSep us)) = .ok (nfc s)
      rw [hmm, exceptBind_ok]
      show Except.ok (joinSep ((splitSep s).map nfc)) = .ok (nfc s)
      rw [← nfc_joinSep, joinSep_splitSep]

/-- C1: composing the two public operations gives back the NFC form of a
valid U-label input. -/
theorem utoa_atou_roundtrip (s a : List Nat) (hv : ValidULabelDomain s)
    (h : idn2_utoa s = .ok a) : idn2_atou a = .ok (nfc s) := by
  unfold idn2_utoa at h
  have heng := wrapper_ok_inv h
  have hU := utoa_engine_roundtrip hv heng
  unfold idn2_atou
  rw [hU]

/-! ## Further helpers for the remaining claims -/

theorem except_dichotomy (x : Except PyErr (List Nat)) :
    (∃ v, x = .ok v) ↔ ¬ ∃ e, x = .error e := by
  cases x <;> simp

theorem setidn2errstr_fallback {rc : Int} (h : rc ∉ idn2KnownCodes) :
    setidn2errstr rc = "idn2 error " ++ toString rc := by
  simp only [idn2KnownCodes, List.mem_cons, List.not_mem_nil, or_false, not_or] at h
  obtain ⟨h1, h2, h3, h4, h5, h6, h7, h8, h9, h10, h11, h12, h13, h14, h15, h16,
    h17, h18, h19, h20, h21, h22, h23, h24, h25, h26, h27⟩ := h
  unfold setidn2errstr
  rw [if_neg h1, if_neg h2, if_neg h3, if_neg h4, if_neg h5, if_neg h6, if_neg h7,
    if_neg h8, if_neg h9, if_neg h10, if_neg h11, if_neg h12, if_neg h13,
    if_neg h14, if_neg h15, if_neg h16, if_neg h17, if_neg h18, if_neg h19,
    if_neg h20, if_neg h21, if_neg h22, if_neg h23, if_neg h24, if_neg h25,
    if_neg h26, if_neg h27]

theorem setidn2errstr_ne_bothnull (rc : Int) :
    setidn2errstr rc ≠ "Both arguments null." := by
  by_cases h : rc ∈ idn2KnownCodes
  · fin_cases h <;> decide
  · rw [setidn2errstr_fallback h]
    intro hcontra
    have h0 := congrArg String.data hcontra
    rw [String.data_append] at h0
    have h1 : "idn2 error ".data = ['i','d','n','2',' ','e','r','r','o','r',' '] := rfl
    rw [h1] at h0
    have h2 : "Both arguments null.".data =
      ['B','o','t','h',' ','a','r','g','u','m','e','n','t','s',' ','n','u','l','l','.'] := rfl
    rw [h2] at h0
    simp at h0

theorem mapM_ok_mem {α β : Type} {f : α → Except Int β} {ls : List α}
    {as : List β} (h : ls.mapM f = .ok as) : ∀ l ∈ ls, ∃ a, f l = .ok a := by
  have hfa := mapM_ok_forall ls as h
  clear h
  induction hfa with
  | nil => intro l hl; simp at hl
  | cons hla _ ih =>
    intro l hl
    rcases List.mem_cons.mp hl with rfl | hl
    · exact ⟨_, hla⟩
    · exact ih l hl

theorem compose2_snd_ne {a b : Nat} (h : b ≠ 769) : compose2 a b = none := by
  unfold compose2
  split_ifs <;> simp_all

theorem exists_pair_of_nfc_ne {l : List Nat} (h : nfc l ≠ l) :
    ∃ a b c, [a, b] <:+: l ∧ compose2 a b = some c := by
  by_contra hcon
  push_neg at hcon
  apply h
  apply nfc_eq_self_of_no_pair
  intro a b hab
  cases hc : compose2 a b with
  | none => rfl
  | some c => exact absurd hc (hcon a b c hab)

/-- A successful variable-length-integer read consumes a prefix of valid
digit characters. -/
theorem decodeVar_consumed :
    ∀ (ds : List Nat) (bias k w i i' : Nat) (rest : List Nat),
      decodeVar bias k w i ds = some (i', rest) →
      ∃ pre, ds = pre ++ rest ∧ ∀ c ∈ pre, (digitVal c).isSome := by
  intro ds
  induction ds with
  | nil => intro _ _ _ _ _ _ h; simp [decodeVar] at h
  | cons d ds ih =>
    intro bias k w i i' rest h
    unfold decodeVar at h
    cases hdv : digitVal d with
    | none => rw [hdv] at h; simp at h
    | some dv =>
      rw [hdv] at h
      replace h : (if maxint - i < dv * w then none
        else if dv < threshold k bias then some (i + dv * w, ds)
        else if maxint < w * (punyBase - threshold k bias) then none
        else decodeVar bias (k + punyBase) (w * (punyBase - threshold k bias))
          (i + dv * w) ds) = some (i', rest) := h
      split_ifs at h with h1 h2 h3
      · obtain ⟨rfl, rfl⟩ := h
        exact ⟨[d], rfl, by simp [hdv]⟩
      · obtain ⟨pre, hpre, hdig⟩ := ih _ _ _ _ _ _ h
        refine ⟨d :: pre, by simp [hpre], ?_⟩
        intro c hc
        rcases List.mem_cons.mp hc with rfl | hc
        · simp [hdv]
        · exact hdig c hc

/-- A successful decoder run reads only valid digit characters. -/
theorem decLoop_all_digits :
    ∀ (fuel n i bias : Nat) (out ds res : List Nat),
      decLoop fuel n i bias out ds = some res →
      ∀ c ∈ ds, (digitVal c).isSome := by
  intro fuel
  induction fuel with
  | zero => intro _ _ _ _ _ _ h; simp [decLoop] at h
  | succ fu ih =>
    intro n i bias out ds res h c hc
    cases ds with
    | nil => simp at hc
    | cons d ds' =>
      replace h : (match decStep n i bias out (d :: ds') with
        | none => none
        | some (n', i', bias', out', rest) => decLoop fu n' i' bias' out' rest)
          = some res := h
      cases hstep : decStep n i bias out (d :: ds') with
      | none => rw [hstep] at h; simp at h
      | some tup =>
        obtain ⟨n', i', bias', out', rest⟩ := tup
        rw [hstep] at h
        replace h : decLoop fu n' i' bias' out' rest = some res := h
        unfold decStep at hstep
        cases hdv : decodeVar bias punyBase 1 i (d :: ds') with
        | none => rw [hdv] at hstep; simp at hstep
        | some pr =>
          obtain ⟨iv, rest2⟩ := pr
          rw [hdv] at hstep
          replace hstep : (if maxint - n < iv / (out.length + 1) then none
            else if out.length < iv % (out.length + 1) then none
            else some (n + iv / (out.length + 1), iv % (out.length + 1) + 1,
              adapt (iv - i) (out.length + 1) (decide (i = 0)),
              out.insertIdx (iv % (out.length + 1)) (n + iv / (out.length + 1)),
              rest2)) = some (n', i', bias', out', rest) := hstep
          by_cases h1 : maxint - n < iv / (out.length + 1)
          · rw [if_pos h1] at hstep
            simp at hstep
          · rw [if_neg h1] at hstep
            by_cases h2 : out.length < iv % (out.length + 1)
            · rw [if_pos h2] at hstep
              simp at hstep
            · rw [if_neg h2] at hstep
              have hrest : rest2 = rest := by
                have htup := (Option.some.injEq _ _).mp hstep
                exact congrArg (fun t =>
                  t.2.2.2.2 : Nat × Nat × Nat × List Nat × List Nat → List Nat) htup
              obtain ⟨pre, hpre, hdig⟩ := decodeVar_consumed _ _ _ _ _ _ _ hdv
              rw [hpre] at hc
              rcases List.mem_append.mp hc with hc | hc
              · exact hdig c hc
              · exact ih n' i' bias' out' rest res h c (hrest ▸ hc)

theorem digitVal_isSome_lt {c : Nat} (h : (digitVal c).isSome) : c < 128 := by
  unfold digitVal at h
  split_ifs at h <;> simp_all <;> omega

theorem splitLastDelim_mem {s : List Nat} {c : Nat} (hc : c ∈ s) :
    c ∈ (splitLastDelim s).1 ∨ c = 45 ∨ c ∈ (splitLastDelim s).2 := by
  unfold splitLastDelim
  by_cases hmem : 45 ∈ s
  · rw [if_pos hmem]
    set j := s.length - 1 - List.indexOf 45 s.reverse with hj
    have hidx : List.indexOf 45 s.reverse < s.reverse.length :=
      List.indexOf_lt_length.mpr (List.mem_reverse.mpr hmem)
    have hjlt : j < s.length := by
      simp only [List.length_reverse] at hidx
      have hpos : 0 < s.length := List.length_pos.mpr (by rintro rfl; simp at hmem)
      omega
    have hget45 : s.get ⟨j, hjlt⟩ = 45 := by
      have h1 := List.indexOf_get hidx
      have h2 := List.get_reverse' s ⟨List.indexOf 45 s.reverse, hidx⟩
        (by simp only [List.length_reverse] at hidx ⊢; omega)
      rw [h2] at h1
      have : s.length - 1 - (List.indexOf 45 s.reverse : Nat) = j := rfl
      simpa [this] using h1
    have hdecomp : s.drop j = 45 :: s.drop (j + 1) := by
      rw [List.drop_eq_get_cons hjlt, hget45]
    have : c ∈ s.take j ++ s.drop j := by
      rw [List.take_append_drop]; exact hc
    rcases List.mem_append.mp this with hc2 | hc2
    · exact Or.inl hc2
    · rw [hdecomp] at hc2
      rcases List.mem_cons.mp hc2 with rfl | hc2
      · exact Or.inr (Or.inl rfl)
      · exact Or.inr (Or.inr hc2)
  · rw [if_neg hmem]
    exact Or.inr (Or.inr hc)

/-- A successfully decoded punycode input is pure ASCII. -/
theorem punyDecode_mem_basic {s u : List Nat} (h : punyDecode s = some u) :
    ∀ c ∈ s, c < 128 := by
  intro c hc
  unfold punyDecode at h
  rcases hsp : splitLastDelim s with ⟨bs, ext⟩
  rw [hsp] at h
  replace h : (if (bs.all fun c => decide (c < initialN)) = true then
      decLoop (ext.length + 1) initialN 0 initialBias bs ext else none) = some u := h
  by_cases hall : (bs.all fun c => decide (c < initialN)) = true
  · rw [if_pos hall] at h
    rcases splitLastDelim_mem hc with hc2 | hc2 | hc2
    · rw [hsp] at hc2
      have := List.all_eq_true.mp hall c hc2
      simpa [initialN] using this
    · omega
    · rw [hsp] at hc2
      exact digitVal_isSome_lt (decLoop_all_digits _ _ _ _ _ _ _ h c hc2)
  · rw [if_neg hall] at h
    simp at h

/-- C2: with both a U-label and an A-label supplied, `register` derives
the A-label from the U-label alone (the same value the one-sided call
returns) and compares it byte-for-byte with the supplied A-label; a
mismatch is the distinct U/A-label-mismatch error and agreement returns
the canonical A-label.  Concretely, `register("café", null)` returns
`xn--caf-dma` and `register("café", "xn--wrong")` fails with the mismatch
message. -/
theorem register_cross_check :
    (∀ u a d, idn2_register_u8 (some u) none = .ok d →
      idn2_register (some u) (some a) =
        (if a = d then .ok d
         else .error ⟨idn2ErrorName, setidn2errstr IDN2_UALABEL_MISMATCH⟩)) ∧
    idn2_register (some [99, 97, 102, 233]) none
      = .ok [120, 110, 45, 45, 99, 97, 102, 45, 100, 109, 97] ∧
    idn2_register (some [99, 97, 102, 233])
        (some [120, 110, 45, 45, 119, 114, 111, 110, 103])
      = .error ⟨idn2ErrorName, "Input A-label and U-label does not match."⟩ := by
  refine ⟨?_, by decide, by decide⟩
  intro u a d hd
  have hd' : labelToAscii true u = .ok d := hd
  unfold idn2_register
  rw [if_neg (by simp)]
  show (match (labelToAscii true u >>= fun d' =>
      if a = d' then pure d' else throw IDN2_UALABEL_MISMATCH : Except Int (List Nat)) with
    | .ok r => (.ok r : Except PyErr (List Nat))
    | .error rc => .error ⟨idn2ErrorName, setidn2errstr rc⟩) = _
  rw [hd', exceptBind_ok]
  by_cases had : a = d
  · rw [if_pos had, if_pos had]
    rfl
  · rw [if_neg had, if_neg had]

theorem register_cross_check_witness :
    idn2_register (some [99, 97, 102, 233])
        (some [120, 110, 45, 45, 99, 97, 102, 45, 100, 109, 97])
      = .ok [120, 110, 45, 45, 99, 97, 102, 45, 100, 109, 97] := by
  have h := (register_cross_check.1) [99, 97, 102, 233]
    [120, 110, 45, 45, 99, 97, 102, 45, 100, 109, 97]
    [120, 110, 45, 45, 99, 97, 102, 45, 100, 109, 97] (by decide)
  simpa using h

/-- C4: `register` with both arguments absent fails with the distinct
"Both arguments null." error raised by the wrapper itself, before any
conversion; with at least one argument present that error is never
raised. -/
theorem register_both_null :
    idn2_register none none = .error ⟨idn2ErrorName, "Both arguments null."⟩ ∧
    (∀ u a, u ≠ none ∨ a ≠ none → ∀ e, idn2_register u a = .error e →
      e.msg ≠ "Both arguments null.") := by
  refine ⟨rfl, ?_⟩
  intro u a hpr e herr
  unfold idn2_register at herr
  rw [if_neg (by tauto)] at herr
  cases heng : idn2_register_u8 u a with
  | ok r =>
    rw [heng] at herr
    exact absurd herr (by simp)
  | error rc =>
    rw [heng] at herr
    replace herr : (Except.error ⟨idn2ErrorName, setidn2errstr rc⟩
        : Except PyErr (List Nat)) = .error e := herr
    have he : e = ⟨idn2ErrorName, setidn2errstr rc⟩ :=
      ((Except.error.injEq _ _).mp herr).symm
    rw [he]
    exact setidn2errstr_ne_bothnull rc

theorem register_both_null_witness :
    idn2_register (some [97]) none ≠
      .error ⟨idn2ErrorName, "Both arguments null."⟩ := by
  intro hcontra
  exact register_both_null.2 (some [97]) none (by simp) _ hcontra rfl

/-- C8: every engine error code returned by one of the four operations is
surfaced by the boundary as the `idn2.error` exception carrying the fixed
message that `setidn2errstr` associates with the code, and every numeric
code outside the table falls back to the message embedding the raw code,
"idn2 error %d". -/
theorem error_message_boundary :
    (∀ s rc, idn2_to_ascii_8z s = .error rc →
      idn2_utoa s = .error ⟨idn2ErrorName, setidn2errstr rc⟩) ∧
    (∀ s rc, idn2_lookup_u8 s = .error rc →
      idn2_lookup s = .error ⟨idn2ErrorName, setidn2errstr rc⟩) ∧
    (∀ s rc, idn2_to_unicode_8z8z s = .error rc →
      idn2_atou s = .error ⟨idn2ErrorName, setidn2errstr rc⟩) ∧
    (∀ u a rc, u ≠ none ∨ a ≠ none → idn2_register_u8 u a = .error rc →
      idn2_register u a = .error ⟨idn2ErrorName, setidn2errstr rc⟩) ∧
    (∀ rc, rc ∉ idn2KnownCodes →
      setidn2errstr rc = "idn2 error " ++ toString rc) := by
  refine ⟨?_, ?_, ?_, ?_, fun rc h => setidn2errstr_fallback h⟩
  · intro s rc h
    unfold idn2_utoa
    rw [h]
  · intro s rc h
    unfold idn2_lookup
    rw [h]
  · intro s rc h
    unfold idn2_atou
    rw [h]
  · intro u a rc hpr h
    unfold idn2_register
    rw [if_neg (by tauto), h]

theorem error_message_boundary_witness :
    idn2_utoa [97, 33] = .error ⟨idn2ErrorName, setidn2errstr IDN2_DISALLOWED⟩ ∧
    setidn2errstr (-999) = "idn2 error " ++ toString (-999 : Int) :=
  ⟨error_message_boundary.1 [97, 33] IDN2_DISALLOWED (by decide),
   error_message_boundary.2.2.2.2 (-999) (by decide)⟩

/-- C9: every call to each of the four operations produces exactly one of
two outcomes — a successful complete output value, or a raised error — and
never both or neither. -/
theorem exactly_one_outcome (s t : List Nat) (u a : Option (List Nat)) :
    ((∃ v, idn2_utoa s = .ok v) ↔ ¬ ∃ e, idn2_utoa s = .error e) ∧
    ((∃ v, idn2_lookup s = .ok v) ↔ ¬ ∃ e, idn2_lookup s = .error e) ∧
    ((∃ v, idn2_register u a = .ok v) ↔ ¬ ∃ e, idn2_register u a = .error e) ∧
    ((∃ v, idn2_atou t = .ok v) ↔ ¬ ∃ e, idn2_atou t = .error e) :=
  ⟨except_dichotomy _, except_dichotomy _, except_dichotomy _, except_dichotomy _⟩

/-- C10: each operation is a deterministic function of its arguments
alone: in any two call traces, identical calls give identical results,
independent of position or surrounding calls. -/
theorem calls_deterministic (cs₁ cs₂ : List PyCall) (i j : Nat)
    (hi : i < cs₁.length) (hj : j < cs₂.length)
    (hsame : cs₁.get ⟨i, hi⟩ = cs₂.get ⟨j, hj⟩) :
    (runCalls cs₁).get ⟨i, by simpa [runCalls] using hi⟩ =
      (runCalls cs₂).get ⟨j, by simpa [runCalls] using hj⟩ := by
  show (cs₁.map execCall).get _ = (cs₂.map execCall).get _
  rw [List.get_map, List.get_map, hsame]

theorem calls_deterministic_witness :
    (runCalls [PyCall.utoaC [97], PyCall.lookupC [98]]).get
        ⟨0, by simp [runCalls]⟩ =
      (runCalls [PyCall.atouC [99], PyCall.utoaC [97]]).get
        ⟨1, by simp [runCalls]⟩ :=
  calls_deterministic [PyCall.utoaC [97], PyCall.lookupC [98]]
    [PyCall.atouC [99], PyCall.utoaC [97]] 0 1 (by simp) (by simp) rfl

theorem checkLabelU_all97 {l : List Nat} (hmem : ∀ x ∈ l, x = 97) :
    checkLabelU l = none := by
  have h1 : ¬(l.get? 2 = some 45 ∧ l.get? 3 = some 45) := by
    rintro ⟨h2, -⟩
    have := hmem 45 (List.get?_mem h2)
    omega
  have h2 : ¬(l.head? = some 45 ∨ l.getLast? = some 45) := by
    rintro (hh | hh)
    · have := hmem 45 (List.mem_of_mem_head? hh)
      omega
    · have := hmem 45 (List.mem_of_mem_getLast? hh)
      omega
  have h3 : ¬((match l.head? with | some c => combining c | none => false) = true) := by
    cases hh : l.head? with
    | none => simp
    | some c =>
      have hc := hmem c (List.mem_of_mem_head? hh)
      rw [hc]
      decide
  have h4 : l.all pvalid = true := by
    rw [List.all_eq_true]
    intro x hx
    rw [hmem x hx]
    decide
  unfold checkLabelU
  rw [if_neg h1, if_neg h2, if_neg h3, if_neg (not_not_intro h4)]

theorem labelToAscii_all97 {n : Nat} (h63 : n ≤ 63) :
    labelToAscii false (List.replicate n 97) = .ok (List.replicate n 97) := by
  have hmem : ∀ x ∈ List.replicate n 97, x = 97 :=
    fun x h => List.eq_of_mem_replicate h
  have hmap : (List.replicate n 97).map asciiLowerCp = List.replicate n 97 := by
    rw [List.map_replicate]
    rfl
  have hace : (List.replicate n 97).take 4 ≠ acePfx := by
    intro hc
    have h120 : (120 : Nat) ∈ (List.replicate n 97).take 4 := by
      rw [hc]
      decide
    have := hmem 120 (List.take_subset 4 _ h120)
    omega
  have hnfc : nfc (List.replicate n 97) = List.replicate n 97 := by
    apply nfc_eq_self_of_no_pair
    intro a b hinf
    have ha := hmem a (hinf.subset (by simp))
    have hb := hmem b (hinf.subset (by simp))
    rw [ha, hb]
    decide
  have hall : (List.replicate n 97).all (fun c => decide (c < initialN)) = true := by
    rw [List.all_eq_true]
    intro x hx
    rw [hmem x hx]
    decide
  have hlen : ¬ 63 < (List.replicate n 97).length := by
    rw [List.length_replicate]
    omega
  unfold labelToAscii
  rw [hmap, if_neg hace, if_neg (by simp), hnfc, checkLabelU_all97 hmem]
  show (if (List.replicate n 97).all (fun c => decide (c < initialN)) then
      if 63 < (List.replicate n 97).length
      then (.error IDN2_TOO_BIG_LABEL : Except Int (List Nat))
      else .ok (List.replicate n 97)
    else
      match punyEncode (List.replicate n 97) with
      | none => .error IDN2_PUNYCODE_OVERFLOW
      | some ext =>
        if 63 < (acePfx ++ ext).length then .error IDN2_TOO_BIG_LABEL
        else .ok (acePfx ++ ext)) = .ok (List.replicate n 97)
  rw [if_pos hall, if_neg hlen]

theorem utoa_all97 {n : Nat} (h63 : n ≤ 63) :
    idn2_utoa (List.replicate n 97) = .ok (List.replicate n 97) := by
  have h46 : (46 : Nat) ∉ List.replicate n 97 := by
    intro hm
    have := List.eq_of_mem_replicate hm
    omega
  have hengine : idn2_to_ascii_8z (List.replicate n 97)
      = .ok (List.replicate n 97) := by
    have hb : ((splitSep (List.replicate n 97)).mapM (labelToAscii false) >>=
        fun as =>
          if 255 < (joinSep as).length then throw IDN2_TOO_BIG_DOMAIN
          else pure (joinSep as))
        = (Except.ok (List.replicate n 97) : Except Int (List Nat)) := by
      rw [splitSep_no_sep _ h46,
        forall_mapM_ok (List.Forall₂.cons (labelToAscii_all97 h63) List.Forall₂.nil),
        exceptBind_ok]
      rw [if_neg (by
        show ¬ 255 < (joinSep [List.replicate n 97]).length
        have : joinSep [List.replicate n 97] = List.replicate n 97 := rfl
        rw [this, List.length_replicate]
        omega)]
      rfl
    exact hb
  unfold idn2_utoa
  rw [hengine]

set_option maxRecDepth 40000 in
/-- C3: size limits.  Labels of 1 to 63 code points pass `utoa` unchanged
(shown for the all-`a` labels of every such length), a 64-code-point label
fails with the label-size message, a 255-code-point domain of maximal
labels passes, and a 256-code-point domain fails with the domain-size
message. -/
theorem size_limits :
    (∀ n, 1 ≤ n → n ≤ 63 →
      idn2_utoa (List.replicate n 97) = .ok (List.replicate n 97)) ∧
    idn2_utoa (List.replicate 64 97)
      = .error ⟨idn2ErrorName, "Domain label longer than 63 characters."⟩ ∧
    (joinSep [List.replicate 63 97, List.replicate 63 97, List.replicate 63 97,
        List.replicate 63 97]).length = 255 ∧
    idn2_utoa (joinSep [List.replicate 63 97, List.replicate 63 97,
        List.replicate 63 97, List.replicate 63 97])
      = .ok (joinSep [List.replicate 63 97, List.replicate 63 97,
          List.replicate 63 97, List.replicate 63 97]) ∧
    (joinSep [List.replicate 63 97, List.replicate 63 97, List.replicate 63 97,
        List.replicate 33 97, List.replicate 30 97]).length = 256 ∧
    idn2_utoa (joinSep [List.replicate 63 97, List.replicate 63 97,
        List.replicate 63 97, List.replicate 33 97, List.replicate 30 97])
      = .error ⟨idn2ErrorName, "Domain name longer than 255 characters."⟩ := by
  exact ⟨fun n _ h63 => utoa_all97 h63, by decide, by decide, by decide,
    by decide, by decide⟩

theorem size_limits_witness :
    idn2_utoa (List.replicate 63 97) = .ok (List.replicate 63 97) :=
  size_limits.1 63 (by decide) (by decide)

/-- C6: the punycode codec round-trips every input within the engine's
bounds (labels of at most 63 code points below the Unicode bound), and
rejects malformed extended strings: a bad digit character, and a digit
stream whose accumulated value overflows the 32-bit arithmetic. -/
theorem punycode_codec :
    (∀ S : List Nat, S.length ≤ 63 → (∀ c ∈ S, c < cpBound) →
      ∃ A, punyEncode S = some A ∧ punyDecode A = some S) ∧
    punyDecode [97, 45, 33] = none ∧
    punyDecode (List.replicate 12 122) = none := by
  refine ⟨?_, by decide, by decide⟩
  intro S hlen hcp
  obtain ⟨A, h1, h2, -⟩ := punyEncode_decode S hlen hcp
  exact ⟨A, h1, h2⟩

theorem punycode_codec_witness :
    ∃ A, punyEncode [99, 97, 102, 233] = some A ∧
      punyDecode A = some [99, 97, 102, 233] :=
  punycode_codec.1 [99, 97, 102, 233] (by decide) (by decide)

theorem utoa_single_label_inv {l a : List Nat} (hd : 46 ∉ l)
    (h : idn2_utoa l = .ok a) : labelToAscii false l = .ok a := by
  have heng : idn2_to_ascii_8z l = .ok a := wrapper_ok_inv h
  have heng2 : ((splitSep l).mapM (labelToAscii false) >>= fun as =>
      if 255 < (joinSep as).length then throw IDN2_TOO_BIG_DOMAIN
      else pure (joinSep as)) = .ok a := heng
  rw [splitSep_no_sep l hd] at heng2
  cases hmm : [l].mapM (labelToAscii false) with
  | error e =>
    rw [hmm, exceptBind_err] at heng2
    exact absurd heng2 (by simp)
  | ok as =>
    rw [hmm, exceptBind_ok] at heng2
    have hfa := mapM_ok_forall _ _ hmm
    cases hfa with
    | cons hla htail =>
      rename_i a₁ as'
      cases htail
      by_cases hbig : 255 < (joinSep [a₁]).length
      · rw [if_pos hbig] at heng2
        exact absurd (show (Except.error IDN2_TOO_BIG_DOMAIN
          : Except Int (List Nat)) = .ok a from heng2) (by simp)
      · rw [if_neg hbig] at heng2
        have hja : joinSep [a₁] = a :=
          (Except.ok.injEq _ _).mp (show Except.ok (joinSep [a₁]) = .ok a from heng2)
        have : a₁ = a := hja
        rw [← this]
        exact hla

theorem utoa_single_label {l a : List Nat} (hd : 46 ∉ l)
    (hla : labelToAscii false l = .ok a) (ha255 : a.length ≤ 255) :
    idn2_utoa l = .ok a := by
  have heng : idn2_to_ascii_8z l = .ok a := by
    have hb : ((splitSep l).mapM (labelToAscii false) >>= fun as =>
        if 255 < (joinSep as).length then throw IDN2_TOO_BIG_DOMAIN
        else pure (joinSep as)) = (Except.ok a : Except Int (List Nat)) := by
      rw [splitSep_no_sep l hd,
        forall_mapM_ok (List.Forall₂.cons hla List.Forall₂.nil), exceptBind_ok]
      have hj : joinSep [a] = a := rfl
      rw [if_neg (by rw [hj]; omega)]
      rw [hj]
      rfl
    exact hb
  unfold idn2_utoa
  rw [heng]

theorem atou_single_label {a u : List Nat} (hd : 46 ∉ a)
    (hlu : labelToUnicode a = .ok u) : idn2_atou a = .ok u := by
  have heng : idn2_to_unicode_8z8z a = .ok u := by
    have hb : ((splitSep a).mapM labelToUnicode >>= fun us =>
        pure (joinSep us)) = (Except.ok u : Except Int (List Nat)) := by
      rw [splitSep_no_sep a hd,
        forall_mapM_ok (List.Forall₂.cons hlu List.Forall₂.nil), exceptBind_ok]
      rfl
    exact hb
  unfold idn2_atou
  rw [heng]

theorem labelToAscii_ascii_inv {l a : List Nat}
    (hascii : ∀ c ∈ l, c < initialN)
    (hace : (l.map asciiLowerCp).take 4 ≠ acePfx)
    (h : labelToAscii false l = .ok a) :
    a = l.map asciiLowerCp ∧ checkLabelU (l.map asciiLowerCp) = none ∧
      l.length ≤ 63 := by
  have hmem : ∀ c ∈ l.map asciiLowerCp, c < 128 := by
    intro c hc
    obtain ⟨x, hx, rfl⟩ := List.mem_map.mp hc
    exact asciiLowerCp_lt_128.mpr (hascii x hx)
  have hnfc : nfc (l.map asciiLowerCp) = l.map asciiLowerCp := by
    apply nfc_eq_self_of_no_pair
    intro x y hinf
    have hy := hmem y (hinf.subset (by simp))
    exact compose2_snd_ne (by omega)
  unfold labelToAscii at h
  rw [if_neg hace, if_neg (by simp), hnfc] at h
  replace h : (match checkLabelU (l.map asciiLowerCp) with
    | some rc => (.error rc : Except Int (List Nat))
    | none =>
      if (l.map asciiLowerCp).all (fun c => decide (c < initialN)) then
        if 63 < (l.map asciiLowerCp).length then .error IDN2_TOO_BIG_LABEL
        else .ok (l.map asciiLowerCp)
      else
        match punyEncode (l.map asciiLowerCp) with
        | none => .error IDN2_PUNYCODE_OVERFLOW
        | some ext =>
          if 63 < (acePfx ++ ext).length then .error IDN2_TOO_BIG_LABEL
          else .ok (acePfx ++ ext)) = .ok a := h
  cases hchk : checkLabelU (l.map asciiLowerCp) with
  | some rc =>
    rw [hchk] at h
    exact absurd (show (Except.error rc : Except Int (List Nat)) = .ok a from h)
      (by simp)
  | none =>
    rw [hchk] at h
    replace h : (if (l.map asciiLowerCp).all (fun c => decide (c < initialN)) then
        if 63 < (l.map asciiLowerCp).length
        then (.error IDN2_TOO_BIG_LABEL : Except Int (List Nat))
        else .ok (l.map asciiLowerCp)
      else
        match punyEncode (l.map asciiLowerCp) with
        | none => .error IDN2_PUNYCODE_OVERFLOW
        | some ext =>
          if 63 < (acePfx ++ ext).length then .error IDN2_TOO_BIG_LABEL
          else .ok (acePfx ++ ext)) = .ok a := h
    have hall : (l.map asciiLowerCp).all (fun c => decide (c < initialN)) = true := by
      rw [List.all_eq_true]
      intro x hx
      rw [decide_eq_true_eq]
      have := hmem x hx
      simp only [initialN]
      omega
    rw [if_pos hall] at h
    by_cases hlen : 63 < (l.map asciiLowerCp).length
    · rw [if_pos hlen] at h
      exact absurd (show (Except.error IDN2_TOO_BIG_LABEL
        : Except Int (List Nat)) = .ok a from h) (by simp)
    · rw [if_neg hlen] at h
      have ha : l.map asciiLowerCp = a :=
        (Except.ok.injEq _ _).mp (show Except.ok (l.map asciiLowerCp) = .ok a from h)
      refine ⟨ha.symm, rfl, ?_⟩
      rw [List.length_map] at hlen
      omega

/-- C7, counterexample to the claim as stated: the all-ASCII label
`xn--caf-dma` passes `utoa` unchanged, yet `atou` does not return it
unchanged — the ACE prefix makes `atou` decode it to `café`.  "ASCII input
is passed through by both directions" therefore fails for ACE-prefixed
ASCII labels. -/
theorem ascii_passthrough_counterexample :
    (∀ c ∈ [120, 110, 45, 45, 99, 97, 102, 45, 100, 109, 97], c < initialN) ∧
    idn2_utoa [120, 110, 45, 45, 99, 97, 102, 45, 100, 109, 97]
      = .ok [120, 110, 45, 45, 99, 97, 102, 45, 100, 109, 97] ∧
    idn2_atou [120, 110, 45, 45, 99, 97, 102, 45, 100, 109, 97]
      = .ok [99, 97, 102, 233] ∧
    [99, 97, 102, 233] ≠ [120, 110, 45, 45, 99, 97, 102, 45, 100, 109, 97] := by
  refine ⟨by decide, by decide, by decide, by decide⟩

/-- C7 (amended): for an all-ASCII dot-free label that does not carry the
ACE prefix after case folding, `utoa` only case-folds; the result is a
fixed point of both `utoa` and `atou`. -/
theorem ascii_label_passthrough {l a : List Nat}
    (hascii : ∀ c ∈ l, c < initialN) (hd : 46 ∉ l)
    (hace : (l.map asciiLowerCp).take 4 ≠ acePfx)
    (h : idn2_utoa l = .ok a) :
    a = l.map asciiLowerCp ∧ idn2_utoa a = .ok a ∧ idn2_atou a = .ok a := by
  obtain ⟨rfl, hchk, hlen⟩ :=
    labelToAscii_ascii_inv hascii hace (utoa_single_label_inv hd h)
  have hmem : ∀ c ∈ l.map asciiLowerCp, c < 128 := by
    intro c hc
    obtain ⟨x, hx, rfl⟩ := List.mem_map.mp hc
    exact asciiLowerCp_lt_128.mpr (hascii x hx)
  have hlow : ∀ c ∈ l.map asciiLowerCp, asciiLowerCp c = c := by
    intro c hc
    obtain ⟨x, hx, rfl⟩ := List.mem_map.mp hc
    exact asciiLowerCp_idem x
  have hmapid : (l.map asciiLowerCp).map asciiLowerCp = l.map asciiLowerCp :=
    map_lower_id hlow
  have hd2 : 46 ∉ l.map asciiLowerCp := by
    intro hc
    obtain ⟨x, hx, hlx⟩ := List.mem_map.mp hc
    exact hd (asciiLowerCp_ne_46.mp hlx ▸ hx)
  have hnfc : nfc (l.map asciiLowerCp) = l.map asciiLowerCp := by
    apply nfc_eq_self_of_no_pair
    intro x y hinf
    have hy := hmem y (hinf.subset (by simp))
    exact compose2_snd_ne (by omega)
  have hall : (l.map asciiLowerCp).all (fun c => decide (c < initialN)) = true := by
    rw [List.all_eq_true]
    intro x hx
    rw [decide_eq_true_eq]
    have := hmem x hx
    simp only [initialN]
    omega
  have hlen2 : ¬ 63 < (l.map asciiLowerCp).length := by
    rw [List.length_map]
    omega
  have hla : labelToAscii false (l.map asciiLowerCp) = .ok (l.map asciiLowerCp) := by
    unfold labelToAscii
    rw [hmapid, if_neg hace, if_neg (by simp), hnfc, hchk]
    show (if (l.map asciiLowerCp).all (fun c => decide (c < initialN)) then
        if 63 < (l.map asciiLowerCp).length
        then (.error IDN2_TOO_BIG_LABEL : Except Int (List Nat))
        else .ok (l.map asciiLowerCp)
      else
        match punyEncode (l.map asciiLowerCp) with
        | none => .error IDN2_PUNYCODE_OVERFLOW
        | some ext =>
          if 63 < (acePfx ++ ext).length then .error IDN2_TOO_BIG_LABEL
          else .ok (acePfx ++ ext)) = .ok (l.map asciiLowerCp)
    rw [if_pos hall, if_neg hlen2]
  have hlu : labelToUnicode (l.map asciiLowerCp) = .ok (l.map asciiLowerCp) := by
    unfold labelToUnicode
    rw [hmapid, if_neg hace]
  exact ⟨rfl, utoa_single_label hd2 hla (by rw [List.length_map]; omega),
    atou_single_label hd2 hlu⟩

theorem ascii_label_passthrough_witness :
    ([97, 98, 99] : List Nat) = [97, 66, 99].map asciiLowerCp ∧
      idn2_utoa [97, 98, 99] = .ok [97, 98, 99] ∧
      idn2_atou [97, 98, 99] = .ok [97, 98, 99] :=
  ascii_label_passthrough (l := [97, 66, 99]) (a := [97, 98, 99])
    (by decide) (by decide) (by decide) (by decide)

/-- A label that `lookup`'s NFC-input mode converts successfully is in NFC
form: in the non-ACE branch the mode rejects non-NFC directly, and in the
ACE branch a decodable payload is all-ASCII, which composes with nothing. -/
theorem labelToAscii_lookup_nfc {l a : List Nat}
    (h : labelToAscii true l = .ok a) : nfc l = l := by
  by_contra hne
  obtain ⟨x, y, c, hinf, hcomp⟩ := exists_pair_of_nfc_ne hne
  obtain ⟨hx, hy, -⟩ := compose2_some hcomp
  subst hy
  have hlx : asciiLowerCp x = x := by
    rcases hx with rfl | rfl | rfl <;> rfl
  have hinf2 : [x, 769] <:+: l.map asciiLowerCp := by
    have hm := hinf.map asciiLowerCp
    have hpair : [x, 769].map asciiLowerCp = [x, 769] := by
      simp [hlx, show asciiLowerCp 769 = 769 from rfl]
    rwa [hpair] at hm
  unfold labelToAscii at h
  by_cases hace : (l.map asciiLowerCp).take 4 = acePfx
  · rw [if_pos hace] at h
    cases hpd : punyDecode ((l.map asciiLowerCp).drop 4) with
    | none =>
      rw [hpd] at h
      exact absurd
        (show (Except.error IDN2_INVALID_ALABEL : Except Int (List Nat)) = .ok a from h)
        (by simp)
    | some u =>
      have h769 : (769 : Nat) ∈ l.map asciiLowerCp := hinf2.subset (by simp)
      have hsplit : (769 : Nat) ∈ (l.map asciiLowerCp).take 4 ∨
          (769 : Nat) ∈ (l.map asciiLowerCp).drop 4 := by
        rw [← List.take_append_drop 4 (l.map asciiLowerCp)] at h769
        exact List.mem_append.mp h769
      rcases hsplit with h7 | h7
      · rw [hace] at h7
        exact absurd h7 (by decide)
      · have := punyDecode_mem_basic hpd 769 h7
        omega
  · rw [if_neg hace] at h
    by_cases hn : nfc (l.map asciiLowerCp) = l.map asciiLowerCp
    · have hnone := no_pair_of_nfc_eq_self _ hn x 769 hinf2
      rw [hnone] at hcomp
      exact absurd hcomp (by simp)
    · rw [if_pos ⟨rfl, hn⟩] at h
      exact absurd
        (show (Except.error IDN2_NOT_NFC : Except Int (List Nat)) = .ok a from h)
        (by simp)

/-- C5, counterexample to the claim as stated: the non-NFC input
`"!.e" + COMBINING ACUTE` makes `lookup` fail — but with the
disallowed-character message from the first label, not the
"String is not NFC." message: validation of an earlier label preempts
the NFC rejection. -/
theorem lookup_non_nfc_counterexample :
    nfc [33, 46, 101, 769] ≠ [33, 46, 101, 769] ∧
    idn2_lookup [33, 46, 101, 769]
      = .error ⟨idn2ErrorName, setidn2errstr IDN2_DISALLOWED⟩ ∧
    setidn2errstr IDN2_DISALLOWED ≠ setidn2errstr IDN2_NOT_NFC := by
  refine ⟨by decide, by decide, by decide⟩

/-- C5 (amended): `lookup` never succeeds on input that is not NFC, and on
a single already-case-folded non-ACE label that is not NFC it fails with
exactly the "String is not NFC." error. -/
theorem lookup_rejects_non_nfc :
    (∀ s : List Nat, nfc s ≠ s → ∀ v, idn2_lookup s ≠ .ok v) ∧
    (∀ s : List Nat, 46 ∉ s → (∀ c ∈ s, asciiLowerCp c = c) →
      s.take 4 ≠ acePfx → nfc s ≠ s →
      idn2_lookup s = .error ⟨idn2ErrorName, setidn2errstr IDN2_NOT_NFC⟩) := by
  constructor
  · intro s hne v hok
    unfold idn2_lookup at hok
    have heng : idn2_lookup_u8 s = .ok v := wrapper_ok_inv hok
    have heng2 : ((splitSep s).mapM (labelToAscii true) >>= fun as =>
        if 255 < (joinSep as).length then throw IDN2_TOO_BIG_DOMAIN
        else pure (joinSep as)) = .ok v := heng
    cases hmm : (splitSep s).mapM (labelToAscii true) with
    | error e =>
      rw [hmm, exceptBind_err] at heng2
      exact absurd heng2 (by simp)
    | ok as =>
      have hlab : ∀ l ∈ splitSep s, nfc l = l := by
        intro l hl
        obtain ⟨a, ha⟩ := mapM_ok_mem hmm l hl
        exact labelToAscii_lookup_nfc ha
      apply hne
      conv_lhs => rw [← joinSep_splitSep s]
      rw [nfc_joinSep]
      have hmapid : (splitSep s).map nfc = (splitSep s).map id :=
        List.map_congr_left hlab
      rw [hmapid, List.map_id, joinSep_splitSep]
  · intro s hd hlow hace hne
    have hmap : s.map asciiLowerCp = s := map_lower_id hlow
    have hla : labelToAscii true s = .error IDN2_NOT_NFC := by
      unfold labelToAscii
      rw [hmap, if_neg hace, if_pos ⟨rfl, hne⟩]
    have heng : idn2_lookup_u8 s = .error IDN2_NOT_NFC := by
      have hb : ((splitSep s).mapM (labelToAscii true) >>= fun as =>
          if 255 < (joinSep as).length then throw IDN2_TOO_BIG_DOMAIN
          else pure (joinSep as))
          = (Except.error IDN2_NOT_NFC : Except Int (List Nat)) := by
        rw [splitSep_no_sep s hd]
        have hm : [s].mapM (labelToAscii true) = .error IDN2_NOT_NFC := by
          rw [List.mapM_cons, hla, exceptBind_err]
        rw [hm, exceptBind_err]
      exact hb
    unfold idn2_lookup
    rw [heng]

theorem lookup_rejects_non_nfc_witness :
    idn2_lookup [101, 769] = .error ⟨idn2ErrorName, setidn2errstr IDN2_NOT_NFC⟩ :=
  lookup_rejects_non_nfc.2 [101, 769] (by decide) (by decide) (by decide)
    (by decide)

theorem utoa_atou_roundtrip_witness :
    idn2_atou [120, 110, 45, 45, 99, 97, 102, 45, 100, 109, 97]
      = .ok (nfc [99, 97, 102, 233]) :=
  utoa_atou_roundtrip [99, 97, 102, 233]
    [120, 110, 45, 45, 99, 97, 102, 45, 100, 109, 97]
    (by unfold ValidULabelDomain; decide) (by decide)

end Pyidn2
